import Mathlib

/-!
# Verification of the obsidian-ai-tagger plugin (`src/main.ts`)

This file gives a shallow embedding of the plugin's logic and proves, or
refutes, the frozen behavioural claims about it.

Text is modelled as `List Char` (one entry per UTF-16-representable scalar
value).  The JavaScript string operations used by the source — `match` with
the two concrete regular expressions `^---\n([\s\S]*?)\n---` and
`/tags:\s*\[(.*)\]/`, `String.prototype.replace` (including `$`-substitution
in the replacement string), `split(',')`, `trim`, `slice`, spread of a `Set`,
and `JSON.parse` — are each translated as executable Lean functions below.
-/

set_option maxHeartbeats 1000000

/-- Character strings, modelled as lists of characters. -/
abbrev Str := List Char

/-- Coerce a Lean string literal to the `Str` model. -/
def str (x : String) : Str := x.data

/-- The JavaScript `\s` character class (also the character set removed by
`String.prototype.trim`): WhiteSpace together with LineTerminator. -/
def isJsWs (c : Char) : Bool :=
  c = ' ' || c = '\t' || c = '\n' || c = '\r' || c = '\x0b' || c = '\x0c' ||
  c = '\u00A0' || c = '\u1680' || ('\u2000' ≤ c && c ≤ '\u200A') ||
  c = '\u2028' || c = '\u2029' || c = '\u202F' || c = '\u205F' ||
  c = '\u3000' || c = '\uFEFF'

/-- JavaScript LineTerminator characters: the characters NOT matched by `.`
in a regular expression without the `s` flag. -/
def isLineTerm (c : Char) : Bool :=
  c = '\n' || c = '\r' || c = '\u2028' || c = '\u2029'

/-- JavaScript `String.prototype.trim`. -/
def jsTrim (l : Str) : Str :=
  ((l.dropWhile isJsWs).reverse.dropWhile isJsWs).reverse

/-- `s.split(pat)` at the first occurrence only: returns the part before the
first occurrence of `pat` and the part after it (`none` when `pat` does not
occur).  This is the primitive behind both the lazy regex fragment
`([\s\S]*?)\n---` (first occurrence of `"\n---"`) and
`String.prototype.replace` with a plain-string pattern. -/
def splitFirst (pat : Str) : Str → Option (Str × Str)
  | [] => if pat.isPrefixOf ([] : Str) then some ([], []) else none
  | c :: cs =>
    if pat.isPrefixOf (c :: cs) then some ([], (c :: cs).drop pat.length)
    else (splitFirst pat cs).map fun p => (c :: p.1, p.2)

/-- JavaScript `content.match` with pattern `^---\n([\s\S]*?)\n---` (line 161 of
`main.ts`): if the text starts with the delimiter line `"---\n"` and the
remainder contains `"\n---"`, the match succeeds; the capture (the header
body) is everything up to the FIRST `"\n---"` (the quantifier is lazy), and
the second component returned here is the text after the whole match. -/
def fmMatch (content : Str) : Option (Str × Str) :=
  if (str "---\n").isPrefixOf content then
    match splitFirst (str "\n---") (content.drop 4) with
    | some (body, rest) => some (body, rest)
    | none => none
  else none

/-- Split a list at its LAST `']'`: `some (before, after)` with
`l = before ++ ']' :: after` and no `']'` in `after`; `none` when `l`
contains no `']'`.  This implements the backtracking of the greedy `(.*)\]`
fragment of `/tags:\s*\[(.*)\]/` inside one line. -/
def lastBrk : Str → Option (Str × Str)
  | [] => none
  | c :: cs =>
    match lastBrk cs with
    | some p => some (c :: p.1, p.2)
    | none => if c = ']' then some ([], cs) else none

/-- One attempted match of `/tags:\s*\[(.*)\]/` at the start of `s`
(JavaScript regex semantics: the literal `tags:`, then a maximal run of `\s`
characters — any shorter run is followed by a `\s` character, which cannot be
`[`, so the greedy run is forced — then `[`, then `.*` runs greedily to the
end of the current line, where "line" ends at the first LineTerminator, and
backtracks to the last `]` of that line).  On success, returns
`(ws, inner, post)` with the whole match being
`"tags:" ++ ws ++ "[" ++ inner ++ "]"` and `post` the remainder of `s`. -/
def tagsMatchAt (s : Str) : Option (Str × Str × Str) :=
  if s.take 5 = str "tags:" then
    let r := s.drop 5
    let r2 := r.dropWhile isJsWs
    match r2 with
    | '[' :: r3 =>
      let line := r3.takeWhile (fun c => !isLineTerm c)
      let restLine := r3.dropWhile (fun c => !isLineTerm c)
      match lastBrk line with
      | some (inner, afterBrk) => some (r.takeWhile isJsWs, inner, afterBrk ++ restLine)
      | none => none
    | _ => none
  else none

/-- `body.match(/tags:\s*\[(.*)\]/)` (line 166 of `main.ts`): the leftmost
position at which `tagsMatchAt` succeeds.  Returns `(pre, ws, inner, post)`
with `body = pre ++ "tags:" ++ ws ++ "[" ++ inner ++ "]" ++ post`. -/
def tagsSearch : Str → Option (Str × Str × Str × Str)
  | [] => none
  | c :: cs =>
    match tagsMatchAt (c :: cs) with
    | some (ws, inner, post) => some ([], ws, inner, post)
    | none => (tagsSearch cs).map fun r => (c :: r.1, r.2)

/-- JavaScript `split(',')`: splits at every comma; an empty string yields
one empty element. -/
def splitOnComma : Str → List Str
  | [] => [[]]
  | c :: cs =>
    if c = ',' then [] :: splitOnComma cs
    else
      match splitOnComma cs with
      | [] => [[c]]
      | a :: as => (c :: a) :: as

/-- `t.replace(/['"]/g, '')`: delete every single- and double-quote. -/
def stripQuotes (l : Str) : Str := l.filter (fun c => c ≠ '\'' && c ≠ '"')

/-- Line 168 of `main.ts`:
`existingTags[1].split(',').map(t => t.trim().replace(/['"]/g, ''))`. -/
def parseTags (inner : Str) : List Str :=
  (splitOnComma inner).map (fun t => stripQuotes (jsTrim t))

/-- `[...new Set(l)]`: de-duplication keeping the first occurrence of each
element, in order (accumulator = elements already seen). -/
def setDedupAux (seen : List Str) : List Str → List Str
  | [] => []
  | x :: xs =>
    if x ∈ seen then setDedupAux seen xs
    else x :: setDedupAux (x :: seen) xs

/-- `[...new Set(l)]` on a list of strings. -/
def setDedup (l : List Str) : List Str := setDedupAux [] l

/-- `merged.map(t => '"' + t + '"').join(', ')` (template-literal quoting of
each tag, joined with comma-space). -/
def serializeTags : List Str → Str
  | [] => []
  | [t] => '"' :: (t ++ ['"'])
  | t :: rest => '"' :: (t ++ ['"']) ++ str ", " ++ serializeTags rest

/-- ECMAScript `GetSubstitution`: the `$`-escape expansion that
`String.prototype.replace` applies to its replacement string.  `before` is
the text preceding the match, `matched` the matched text, `after` the text
following it, `cap1` the first capture group (`none` when the pattern has no
groups, as is the case for both `replace` calls in `applyTags`: the inner one
uses `/tags:\s*\[.*\]/` — no group — and the outer one uses a plain string).
`$$`→`$`, `$&`→match, `$`+backquote→before, `$'`→after, `$1`→group 1 when it
exists; anything else after `$` is literal. -/
def getSubstitution (before matched after : Str) (cap1 : Option Str) : Str → Str
  | [] => []
  | '$' :: '$' :: r => '$' :: getSubstitution before matched after cap1 r
  | '$' :: '&' :: r => matched ++ getSubstitution before matched after cap1 r
  | '$' :: '\x60' :: r => before ++ getSubstitution before matched after cap1 r
  | '$' :: '\'' :: r => after ++ getSubstitution before matched after cap1 r
  | '$' :: '1' :: r =>
    match cap1 with
    | some c => c ++ getSubstitution before matched after cap1 r
    | none => '$' :: '1' :: getSubstitution before matched after cap1 r
  | '$' :: c :: r => '$' :: c :: getSubstitution before matched after cap1 r
  | [c] => [c]
  | c :: r => c :: getSubstitution before matched after cap1 r

/-- `s.replace(pat, repl)` with a plain-string pattern: replace the first
occurrence of `pat`, applying `GetSubstitution` to `repl` (no capture
groups). -/
def replaceFirstStr (s pat repl : Str) : Str :=
  match splitFirst pat s with
  | some (before, after) =>
    before ++ getSubstitution before pat after none repl ++ after
  | none => s

/-- The Frontmatter Merger: `applyTags` from `main.ts` lines 157–184, as a
pure function from the current note text and the tag list to the new note
text (the surrounding `vault.read` / `vault.modify` I/O is the caller's).

* Header detection: `fmMatch` (regex `^---\n([\s\S]*?)\n---`).
* If the header body has a `tags: [...]` field (`tagsSearch`), the existing
  tags are parsed (`parseTags`), merged with the new ones
  (`[...new Set([...current, ...tags])]`) and the field is replaced in the
  body via regex `replace` (with `$`-substitution on the replacement).
* If the body has no such field, a `tags:` line is appended to the body.
* In both cases the original whole-match `"---\n" ++ body ++ "\n---"` is
  replaced in the full text by the rebuilt header (string `replace`, again
  with `$`-substitution).
* With no header at all, a fresh header plus a blank line is prepended. -/
def applyTags (content : Str) (tags : List Str) : Str :=
  match fmMatch content with
  | some (body, _) =>
    let match0 := str "---\n" ++ body ++ str "\n---"
    match tagsSearch body with
    | some (pre, ws, inner, post) =>
      let current := parseTags inner
      let merged := setDedup (current ++ tags)
      let newField := str "tags: [" ++ serializeTags merged ++ str "]"
      let matched := str "tags:" ++ ws ++ str "[" ++ inner ++ str "]"
      let newFrontmatter :=
        pre ++ getSubstitution pre matched post none newField ++ post
      replaceFirstStr content match0
        (str "---\n" ++ newFrontmatter ++ str "\n---")
    | none =>
      let newFrontmatter :=
        body ++ str "\ntags: [" ++ serializeTags tags ++ str "]"
      replaceFirstStr content match0
        (str "---\n" ++ newFrontmatter ++ str "\n---")
  | none =>
    str "---\ntags: [" ++ serializeTags tags ++ str "]\n---\n\n" ++ content

example :
    applyTags (str "---\ntags: [\"a\", \"b\"]\n---\nhello") [str "b", str "c"]
      = str "---\ntags: [\"a\", \"b\", \"c\"]\n---\nhello" := by decide

example :
    applyTags (str "plain text") [str "x"]
      = str "---\ntags: [\"x\"]\n---\n\nplain text" := by decide

example :
    applyTags (str "---\naliases: [\"foo\"]\n---\nbody") [str "x"]
      = str "---\naliases: [\"foo\"]\ntags: [\"x\"]\n---\nbody" := by decide

/-! ## Specification lemmas for `splitFirst` and `fmMatch` -/

/-- If the pattern is a prefix, `splitFirst` fires immediately. -/
theorem splitFirst_prefix (pat : Str) (s : Str) (h : pat <+: s) :
    splitFirst pat s = some ([], s.drop pat.length) := by
  cases s with
  | nil =>
    have h0 : pat = [] := List.prefix_nil.mp h
    subst h0; simp [splitFirst]
  | cons c cs =>
    rw [splitFirst, if_pos (List.isPrefixOf_iff_prefix.mpr h)]

/-- Soundness of `splitFirst`: on success the string decomposes around the
pattern, and the pattern starts at no earlier position. -/
theorem splitFirst_eq_some (pat : Str) :
    ∀ s a b : Str, splitFirst pat s = some (a, b) →
      s = a ++ pat ++ b ∧
      ∀ t : Str, t <:+ a → t ≠ [] → ¬ pat <+: (t ++ pat ++ b) := by
  intro s
  induction s with
  | nil =>
    intro a b h
    rw [splitFirst] at h
    split at h
    · rename_i hp
      have hpat : pat = [] :=
        List.prefix_nil.mp (List.isPrefixOf_iff_prefix.mp hp)
      simp only [Option.some.injEq, Prod.mk.injEq] at h
      obtain ⟨h1, h2⟩ := h
      subst h1; subst h2; subst hpat
      refine ⟨rfl, ?_⟩
      intro t ht hne
      exact absurd (List.suffix_nil.mp ht) hne
    · exact absurd h (by simp)
  | cons c cs ih =>
    intro a b h
    rw [splitFirst] at h
    split at h
    · rename_i hp
      obtain ⟨z, hz⟩ := List.isPrefixOf_iff_prefix.mp hp
      simp only [Option.some.injEq, Prod.mk.injEq] at h
      obtain ⟨h1, h2⟩ := h
      subst h1
      have hb : b = z := by rw [← h2, ← hz, List.drop_left]
      subst hb
      refine ⟨by simpa using hz.symm, ?_⟩
      intro t ht hne
      exact absurd (List.suffix_nil.mp ht) hne
    · rename_i hp
      have hnp : ¬ pat <+: c :: cs := fun hc =>
        hp (List.isPrefixOf_iff_prefix.mpr hc)
      cases hsf : splitFirst pat cs with
      | none => rw [hsf] at h; exact absurd h (by simp)
      | some p =>
        obtain ⟨a', b'⟩ := p
        rw [hsf] at h
        simp only [Option.map_some', Option.some.injEq, Prod.mk.injEq] at h
        obtain ⟨h1, h2⟩ := h
        obtain ⟨hcs, hocc⟩ := ih a' b' hsf
        refine ⟨by rw [← h1, ← h2]; simp [hcs], ?_⟩
        intro t ht hne hc
        rw [← h1] at ht
        rcases List.suffix_cons_iff.mp ht with hh | hh
        · apply hnp
          have he : c :: cs = (c :: a') ++ pat ++ b := by
            rw [← h2]; simp [hcs]
          rw [he]
          rw [hh] at hc
          exact hc
        · rw [← h2] at hc
          exact hocc t hh hne hc

/-- Completeness of `splitFirst`: it fails exactly when the pattern does not
occur in the string. -/
theorem splitFirst_eq_none (pat : Str) :
    ∀ s : Str, splitFirst pat s = none ↔ ¬ pat <:+: s := by
  intro s
  induction s with
  | nil =>
    rw [splitFirst]
    constructor
    · intro h hinf
      have h0 : pat = [] := List.infix_nil.mp hinf
      subst h0; simp at h
    · intro h
      rw [if_neg]
      intro hp
      exact h ((List.isPrefixOf_iff_prefix.mp hp).isInfix)
  | cons c cs ih =>
    rw [splitFirst]
    by_cases hp : pat.isPrefixOf (c :: cs)
    · rw [if_pos hp]
      constructor
      · intro h; exact absurd h (by simp)
      · intro h
        exact absurd ((List.isPrefixOf_iff_prefix.mp hp).isInfix) h
    · rw [if_neg hp]
      have hnp : ¬ pat <+: c :: cs := fun hc =>
        hp (List.isPrefixOf_iff_prefix.mpr hc)
      constructor
      · intro h hinf
        rcases List.infix_cons_iff.mp hinf with h' | h'
        · exact hnp h'
        · cases hsf : splitFirst pat cs with
          | none => exact (ih.mp hsf) h'
          | some p => rw [hsf] at h; exact absurd h (by simp)
      · intro h
        have h0 : splitFirst pat cs = none :=
          ih.mpr fun hc => h (List.infix_cons_iff.mpr (Or.inr hc))
        rw [h0]; rfl

/-- If the pattern occurs nowhere before the exhibited occurrence,
`splitFirst` returns exactly that decomposition. -/
theorem splitFirst_first_occ (pat : Str) :
    ∀ a b : Str, (∀ t : Str, t <:+ a → t ≠ [] → ¬ pat <+: (t ++ pat ++ b)) →
      splitFirst pat (a ++ pat ++ b) = some (a, b) := by
  intro a
  induction a with
  | nil =>
    intro b _
    have h1 : ([] : Str) ++ pat ++ b = pat ++ b := by simp
    rw [h1, splitFirst_prefix pat _ (List.prefix_append pat b), List.drop_left]
  | cons c a' ih =>
    intro b hocc
    have hs : (c :: a') ++ pat ++ b = c :: (a' ++ pat ++ b) := by simp
    rw [hs, splitFirst]
    rw [if_neg]
    · have h0 := ih b (fun t ht hne => hocc t (ht.trans (a'.suffix_cons c)) hne)
      rw [h0]
      rfl
    · intro hp
      have hpre : pat <+: (c :: a') ++ pat ++ b := by
        rw [hs]; exact List.isPrefixOf_iff_prefix.mp hp
      exact hocc (c :: a') List.suffix_rfl (by simp) hpre

/-- A prefix shorter than the first block of an append is a prefix of that
block. -/
theorem prefix_of_append_of_le (P t z : Str) (h : P <+: t ++ z)
    (hl : P.length ≤ t.length) : P <+: t := by
  have h1 := List.prefix_iff_eq_take.mp h
  rw [List.take_append_eq_append_take] at h1
  have h2 : P.length - t.length = 0 := Nat.sub_eq_zero_of_le hl
  rw [h2] at h1
  simp at h1
  rw [h1]
  exact (t.take_prefix P.length).trans List.prefix_rfl

/-- The pattern `"\n---"` cannot overlap a copy of itself across a junction:
if it is a prefix of `t ++ "\n---" ++ z` with `t` nonempty, then it already
occurs inside `t`. -/
theorem nl3_no_overlap (t z : Str) (hne : t ≠ [])
    (h : (str "\n---") <+: (t ++ str "\n---" ++ z)) : (str "\n---") <:+: t := by
  match t, hne with
  | [c1], _ =>
    exfalso
    simp only [str, List.cons_append, List.nil_append, String.data] at h
    rcases List.cons_prefix_cons.mp h with ⟨h1, h2⟩
    rcases List.cons_prefix_cons.mp h2 with ⟨h3, _⟩
    exact absurd h3 (by decide)
  | [c1, c2], _ =>
    exfalso
    simp only [str, List.cons_append, List.nil_append, String.data] at h
    rcases List.cons_prefix_cons.mp h with ⟨h1, h2⟩
    rcases List.cons_prefix_cons.mp h2 with ⟨h3, h4⟩
    rcases List.cons_prefix_cons.mp h4 with ⟨h5, _⟩
    exact absurd h5 (by decide)
  | [c1, c2, c3], _ =>
    exfalso
    simp only [str, List.cons_append, List.nil_append, String.data] at h
    rcases List.cons_prefix_cons.mp h with ⟨h1, h2⟩
    rcases List.cons_prefix_cons.mp h2 with ⟨h3, h4⟩
    rcases List.cons_prefix_cons.mp h4 with ⟨h5, h6⟩
    rcases List.cons_prefix_cons.mp h6 with ⟨h7, _⟩
    exact absurd h7 (by decide)
  | c1 :: c2 :: c3 :: c4 :: t5, _ =>
    rw [List.append_assoc] at h
    have hl : (str "\n---").length ≤ (c1 :: c2 :: c3 :: c4 :: t5).length := by
      simp [str]
    exact (prefix_of_append_of_le _ _ _ h hl).isInfix

/-- Soundness of the frontmatter matcher: on success, the note decomposes as
delimiter, body, delimiter, rest, and the body contains no `"\n---"` (the
lazy quantifier stops at the first closing delimiter). -/
theorem fmMatch_eq_some (content body rest : Str)
    (h : fmMatch content = some (body, rest)) :
    content = str "---\n" ++ body ++ str "\n---" ++ rest ∧
    ¬ (str "\n---") <:+: body := by
  rw [fmMatch] at h
  split at h
  · rename_i hp
    obtain ⟨t, ht⟩ := List.isPrefixOf_iff_prefix.mp hp
    have h4 : (str "---\n").length = 4 := by rfl
    have hdrop : content.drop 4 = t := by
      rw [← ht, ← h4, List.drop_left]
    rw [hdrop] at h
    cases hsp : splitFirst (str "\n---") t with
    | none => rw [hsp] at h; exact absurd h (by simp)
    | some p =>
      obtain ⟨a, b⟩ := p
      rw [hsp] at h
      simp only [Option.some.injEq, Prod.mk.injEq] at h
      obtain ⟨h1, h2⟩ := h
      subst h1; subst h2
      obtain ⟨hdec, hocc⟩ := splitFirst_eq_some _ _ _ _ hsp
      constructor
      · rw [← ht, hdec]; simp
      · intro hinf
        obtain ⟨x, y, hxy⟩ := hinf
        have hsuf : (str "\n---") ++ y <:+ a := ⟨x, by rw [← hxy]; simp⟩
        apply hocc ((str "\n---") ++ y) hsuf (by simp [str])
        have hre : (str "\n---") ++ (y ++ (str "\n---") ++ b) =
            ((str "\n---") ++ y) ++ (str "\n---") ++ b := by simp
        rw [← hre]
        exact List.prefix_append _ _
  · exact absurd h (by simp)

/-- Completeness of the frontmatter matcher on well-formed input: if the body
contains no `"\n---"`, the matcher returns exactly that decomposition. -/
theorem fmMatch_build (body rest : Str) (hni : ¬ (str "\n---") <:+: body) :
    fmMatch (str "---\n" ++ body ++ str "\n---" ++ rest) = some (body, rest) := by
  rw [fmMatch]
  have hsplit : str "---\n" ++ body ++ str "\n---" ++ rest =
      str "---\n" ++ (body ++ str "\n---" ++ rest) := by simp
  have hpre : (str "---\n").isPrefixOf
      (str "---\n" ++ body ++ str "\n---" ++ rest) = true := by
    apply List.isPrefixOf_iff_prefix.mpr
    rw [hsplit]
    exact List.prefix_append _ _
  rw [if_pos hpre]
  have h4 : (str "---\n").length = 4 := by rfl
  have hdrop : (str "---\n" ++ body ++ str "\n---" ++ rest).drop 4 =
      body ++ str "\n---" ++ rest := by
    rw [hsplit, ← h4, List.drop_left]
  rw [hdrop]
  rw [splitFirst_first_occ _ body rest ?occ]
  case occ =>
    intro t ht hne hp
    exact hni ((nl3_no_overlap t rest hne hp).trans ht.isInfix)

/-- The frontmatter matcher fails exactly when the note does not decompose
as delimiter, body, delimiter, rest. -/
theorem fmMatch_none_iff (content : Str) :
    fmMatch content = none ↔
    ¬ ∃ body rest : Str, content = str "---\n" ++ body ++ str "\n---" ++ rest := by
  constructor
  · rintro h ⟨body, rest, hc⟩
    rw [fmMatch] at h
    have hsplit : str "---\n" ++ body ++ str "\n---" ++ rest =
        str "---\n" ++ (body ++ str "\n---" ++ rest) := by simp
    have hpre : (str "---\n").isPrefixOf content = true := by
      apply List.isPrefixOf_iff_prefix.mpr
      rw [hc, hsplit]
      exact List.prefix_append _ _
    rw [if_pos hpre] at h
    have h4 : (str "---\n").length = 4 := by rfl
    have hdrop : content.drop 4 = body ++ str "\n---" ++ rest := by
      rw [hc, hsplit, ← h4, List.drop_left]
    rw [hdrop] at h
    cases hsp : splitFirst (str "\n---") (body ++ str "\n---" ++ rest) with
    | none =>
      apply (splitFirst_eq_none _ _).mp hsp
      exact ⟨body, rest, by simp⟩
    | some p => rw [hsp] at h; exact absurd h (by simp)
  · intro h
    cases hfm : fmMatch content with
    | none => rfl
    | some p =>
      obtain ⟨b, r⟩ := p
      exact absurd ⟨b, r, (fmMatch_eq_some _ _ _ hfm).1⟩ h

/-- With no recognized header, `applyTags` prepends a fresh header and a
blank line to the unchanged text. -/
theorem applyTags_no_header (content : Str) (tags : List Str)
    (h : fmMatch content = none) :
    applyTags content tags =
      str "---\ntags: [" ++ serializeTags tags ++ str "]\n---\n\n" ++ content := by
  simp only [applyTags, h]

/-- C3: for every note text with no recognized metadata header, `applyTags`
prepends a synthesized header consisting solely of the tag field followed by
a blank line, leaving the original text unchanged after it. -/
theorem c3_headerless_synthesis (content : Str) (tags : List Str)
    (h : fmMatch content = none) :
    applyTags content tags =
      str "---\ntags: [" ++ serializeTags tags ++ str "]\n---\n\n" ++ content :=
  applyTags_no_header content tags h

/-- Witness for C3: with no header and new tags `["x"]` the output is exactly
`"---\ntags: [\"x\"]\n---\n\n"` followed by the original text in full. -/
theorem c3_headerless_synthesis_witness :
    applyTags (str "some note text") [str "x"] =
      str "---\ntags: [\"x\"]\n---\n\n" ++ str "some note text" := by
  rw [c3_headerless_synthesis (str "some note text") [str "x"] (by decide)]
  decide

/-- C5: `applyTags` recognizes a metadata header exactly when the note text
decomposes as an opening delimiter line at offset 0, a body, and a matching
closing delimiter; when the opening delimiter has no matching closing
delimiter (or the text does not begin with the delimiter), the header is
treated as absent and the no-header branch (prepending a fresh header) is
taken. -/
theorem c5_header_recognition :
    (∀ content : Str, fmMatch content = none ↔
        ¬ ∃ body rest : Str,
          content = str "---\n" ++ body ++ str "\n---" ++ rest) ∧
    (∀ (content : Str) (tags : List Str), fmMatch content = none →
        applyTags content tags =
          str "---\ntags: [" ++ serializeTags tags ++ str "]\n---\n\n" ++ content) :=
  ⟨fmMatch_none_iff, applyTags_no_header⟩

/-- Witness for C5 at a concrete input: `"---\nno closing"` starts with the
opening delimiter but has no closing delimiter, is not recognized as a
header, and takes the prepend branch. -/
theorem c5_header_recognition_witness :
    (¬ ∃ body rest : Str, str "---\nno closing" =
        str "---\n" ++ body ++ str "\n---" ++ rest) ∧
    applyTags (str "---\nno closing") [str "x"] =
      str "---\ntags: [\"x\"]\n---\n\n" ++ str "---\nno closing" := by
  constructor
  · exact (c5_header_recognition.1 _).mp (by decide)
  · rw [c5_header_recognition.2 (str "---\nno closing") [str "x"] (by decide)]
    decide

/-! ## `$`-substitution, `lastBrk`, `tagsMatchAt`, `tagsSearch` specifications -/

/-- A replacement string without `'$'` passes through `GetSubstitution`
verbatim (single step). -/
theorem getSubstitution_cons_ne (b m a : Str) (k : Option Str) (c : Char)
    (r : Str) (hc : c ≠ '$') :
    getSubstitution b m a k (c :: r) = c :: getSubstitution b m a k r := by
  rw [getSubstitution.eq_def]
  split
  all_goals simp_all [getSubstitution]

/-- A replacement string without `'$'` passes through `GetSubstitution`
verbatim. -/
theorem getSubstitution_id (b m a : Str) (k : Option Str) :
    ∀ repl : Str, '$' ∉ repl → getSubstitution b m a k repl = repl := by
  intro repl
  induction repl with
  | nil => intro _; rfl
  | cons c r ih =>
    intro h
    have hc : c ≠ '$' := fun hcc => h (hcc ▸ List.mem_cons_self c r)
    rw [getSubstitution_cons_ne b m a k c r hc,
      ih (fun hm => h (List.mem_cons_of_mem c hm))]

/-- `replace` with a plain-string pattern that is a prefix of the subject:
the prefix is replaced by the substituted replacement. -/
theorem replaceFirstStr_prefix (pat rest repl : Str) :
    replaceFirstStr (pat ++ rest) pat repl =
      getSubstitution [] pat rest none repl ++ rest := by
  rw [replaceFirstStr, splitFirst_prefix pat _ (List.prefix_append pat rest),
    List.drop_left]
  simp

/-- `lastBrk` fails exactly when the list has no `']'`. -/
theorem lastBrk_eq_none : ∀ l : Str, lastBrk l = none ↔ ']' ∉ l := by
  intro l
  induction l with
  | nil => simp [lastBrk]
  | cons c cs ih =>
    rw [lastBrk]
    cases hlb : lastBrk cs with
    | some p =>
      simp only []
      constructor
      · intro h; exact absurd h (by simp)
      · intro h
        exfalso
        apply h
        apply List.mem_cons_of_mem
        by_contra hmem
        rw [ih.mpr hmem] at hlb
        exact absurd hlb (by simp)
    | none =>
      have hcs : ']' ∉ cs := ih.mp hlb
      by_cases hc : c = ']'
      · subst hc
        simp
      · simp [hc, hcs, eq_comm]

/-- Soundness of `lastBrk`: it splits at a `']'` with none after it. -/
theorem lastBrk_eq_some :
    ∀ l a b : Str, lastBrk l = some (a, b) → l = a ++ ']' :: b ∧ ']' ∉ b := by
  intro l
  induction l with
  | nil => intro a b h; exact absurd h (by simp [lastBrk])
  | cons c cs ih =>
    intro a b h
    rw [lastBrk] at h
    cases hlb : lastBrk cs with
    | some p =>
      obtain ⟨a', b'⟩ := p
      rw [hlb] at h
      simp only [Option.some.injEq, Prod.mk.injEq] at h
      obtain ⟨h1, h2⟩ := h
      obtain ⟨hdec, hnb⟩ := ih a' b' hlb
      subst h2
      refine ⟨?_, hnb⟩
      rw [← h1, hdec]
      rfl
    | none =>
      rw [hlb] at h
      simp only [] at h
      split at h
      · rename_i hcc
        simp only [Option.some.injEq, Prod.mk.injEq] at h
        obtain ⟨h1, h2⟩ := h
        refine ⟨?_, ?_⟩
        · rw [← h1, hcc, ← h2]; simp
        · rw [← h2]; exact (lastBrk_eq_none cs).mp hlb
      · exact absurd h (by simp)

/-- Computation rule: `lastBrk` on a list whose final `']'` is exhibited. -/
theorem lastBrk_last (l b : Str) (hb : ']' ∉ b) :
    lastBrk (l ++ ']' :: b) = some (l, b) := by
  induction l with
  | nil =>
    rw [List.nil_append, lastBrk, (lastBrk_eq_none b).mpr hb]
    simp
  | cons c l' ih =>
    rw [List.cons_append, lastBrk, ih]

/-! ## takeWhile and dropWhile helpers -/

/-- `takeWhile` crosses an all-satisfying block. -/
theorem takeWhile_append_all (p : Char → Bool) :
    ∀ xs ys : Str, (∀ x ∈ xs, p x = true) →
      (xs ++ ys).takeWhile p = xs ++ ys.takeWhile p := by
  intro xs
  induction xs with
  | nil => intro ys _; simp
  | cons c cs ih =>
    intro ys h
    have hc : p c = true := h c (List.mem_cons_self c cs)
    simp only [List.cons_append, List.takeWhile_cons, hc]
    rw [ih ys (fun x hx => h x (List.mem_cons_of_mem c hx))]
    simp

/-- `dropWhile` crosses an all-satisfying block. -/
theorem dropWhile_append_all (p : Char → Bool) :
    ∀ xs ys : Str, (∀ x ∈ xs, p x = true) →
      (xs ++ ys).dropWhile p = ys.dropWhile p := by
  intro xs
  induction xs with
  | nil => intro ys _; simp
  | cons c cs ih =>
    intro ys h
    have hc : p c = true := h c (List.mem_cons_self c cs)
    simp only [List.cons_append, List.dropWhile_cons, hc]
    exact ih ys (fun x hx => h x (List.mem_cons_of_mem c hx))

/-- `takeWhile` stops inside the first block if the block already stops it. -/
theorem takeWhile_append_of_ne_nil (p : Char → Bool) :
    ∀ xs ys : Str, xs.dropWhile p ≠ [] →
      (xs ++ ys).takeWhile p = xs.takeWhile p := by
  intro xs
  induction xs with
  | nil => intro ys h; simp [List.dropWhile] at h
  | cons c cs ih =>
    intro ys h
    by_cases hc : p c
    · simp only [List.dropWhile_cons, hc, if_true] at h
      simp only [List.cons_append, List.takeWhile_cons, hc]
      rw [ih ys h]
    · simp only [List.cons_append, List.takeWhile_cons, hc]
      simp

/-- `dropWhile` stops inside the first block if the block already stops it. -/
theorem dropWhile_append_of_ne_nil (p : Char → Bool) :
    ∀ xs ys : Str, xs.dropWhile p ≠ [] →
      (xs ++ ys).dropWhile p = xs.dropWhile p ++ ys := by
  intro xs
  induction xs with
  | nil => intro ys h; simp [List.dropWhile] at h
  | cons c cs ih =>
    intro ys h
    by_cases hc : p c
    · simp only [List.dropWhile_cons, hc, if_true] at h
      simp only [List.cons_append, List.dropWhile_cons, hc, if_true]
      exact ih ys h
    · simp only [List.cons_append, List.dropWhile_cons, hc]
      simp [hc]

/-- After `dropWhile p`, the head (if any) fails `p`, so a second
`takeWhile p` takes nothing. -/
theorem takeWhile_dropWhile_nil (p : Char → Bool) :
    ∀ l : Str, (l.dropWhile p).takeWhile p = [] := by
  intro l
  induction l with
  | nil => simp
  | cons c cs ih =>
    by_cases hc : p c
    · simp only [List.dropWhile_cons, hc, if_true]; exact ih
    · simp only [List.dropWhile_cons, hc]
      simp [List.takeWhile_cons, hc]

/-! ## `tagsMatchAt` and `tagsSearch` specifications -/

/-- Soundness of `tagsMatchAt`: on success the string decomposes as
`"tags:"`, a whitespace run, `[`, the capture, `]`, and the remainder; the
capture contains no line terminator and the remainder's first line contains
no further `']'` (the greedy `.*` took the last one). -/
theorem tagsMatchAt_eq_some (s ws inner post : Str)
    (h : tagsMatchAt s = some (ws, inner, post)) :
    s = str "tags:" ++ ws ++ '[' :: (inner ++ ']' :: post) ∧
    (∀ c ∈ ws, isJsWs c = true) ∧
    (∀ c ∈ inner, isLineTerm c = false) ∧
    ']' ∉ post.takeWhile (fun c => !isLineTerm c) := by
  rw [tagsMatchAt] at h
  split at h
  case isFalse => exact absurd h (by simp)
  case isTrue h5 =>
    simp only [] at h
    split at h
    case h_2 => exact absurd h (by simp)
    case h_1 r3 hdw =>
      split at h
      case h_2 => exact absurd h (by simp)
      case h_1 inner' afterBrk hlb =>
        simp only [Option.some.injEq, Prod.mk.injEq] at h
        obtain ⟨h1, h2, h3⟩ := h
        obtain ⟨hline, hnb⟩ := lastBrk_eq_some _ _ _ hlb
        have hws : ∀ c ∈ ws, isJsWs c = true := by
          intro c hc
          rw [← h1] at hc
          exact List.mem_takeWhile_imp hc
        have hinner : ∀ c ∈ inner, isLineTerm c = false := by
          intro c hc
          rw [← h2] at hc
          have hmem : c ∈ r3.takeWhile (fun c => !isLineTerm c) := by
            rw [hline]
            exact List.mem_append_left _ hc
          have hp := List.mem_takeWhile_imp hmem
          simpa using hp
        have hr3 : r3 = inner ++ ']' :: post := by
          conv_lhs => rw [← List.takeWhile_append_dropWhile
            (fun c => !isLineTerm c) r3]
          rw [hline, ← h2, ← h3]
          simp
        have hafter : ∀ c ∈ afterBrk, (fun c => !isLineTerm c) c = true := by
          intro c hc
          apply List.mem_takeWhile_imp (l := r3) (p := fun c => !isLineTerm c)
          rw [hline]
          exact List.mem_append_right _ (List.mem_cons_of_mem _ hc)
        have hpost : post.takeWhile (fun c => !isLineTerm c) = afterBrk := by
          rw [← h3, takeWhile_append_all _ _ _ hafter,
            takeWhile_dropWhile_nil]
          simp
        refine ⟨?_, hws, hinner, by rw [hpost]; exact hnb⟩
        conv_lhs => rw [← List.take_append_drop 5 s]
        rw [h5]
        have hrw : s.drop 5 = ws ++ '[' :: r3 := by
          conv_lhs => rw [← List.takeWhile_append_dropWhile isJsWs (s.drop 5)]
          rw [h1, hdw]
        rw [hrw, hr3]
        simp

/-- Soundness of `tagsSearch`: on success the body splits at the leftmost
match, and every earlier start position fails. -/
theorem tagsSearch_eq_some :
    ∀ body pre ws inner post : Str,
      tagsSearch body = some (pre, ws, inner, post) →
      body = pre ++ (str "tags:" ++ ws ++ '[' :: (inner ++ ']' :: post)) ∧
      tagsMatchAt (str "tags:" ++ ws ++ '[' :: (inner ++ ']' :: post)) =
        some (ws, inner, post) ∧
      ∀ t : Str, t <:+ pre → t ≠ [] →
        tagsMatchAt (t ++ (str "tags:" ++ ws ++ '[' :: (inner ++ ']' :: post)))
          = none := by
  intro body
  induction body with
  | nil => intro pre ws inner post h; exact absurd h (by simp [tagsSearch])
  | cons c cs ih =>
    intro pre ws inner post h
    rw [tagsSearch] at h
    cases hma : tagsMatchAt (c :: cs) with
    | some r =>
      obtain ⟨ws0, inner0, post0⟩ := r
      rw [hma] at h
      simp only [Option.some.injEq, Prod.mk.injEq] at h
      obtain ⟨h1, h2, h3, h4⟩ := h
      rw [h2, h3, h4] at hma
      have hdec := (tagsMatchAt_eq_some _ _ _ _ hma).1
      refine ⟨by rw [← h1, ← hdec]; simp, by rw [← hdec]; exact hma, ?_⟩
      intro t ht hne
      rw [← h1] at ht
      exact absurd (List.suffix_nil.mp ht) hne
    | none =>
      rw [hma] at h
      cases hts : tagsSearch cs with
      | none => rw [hts] at h; exact absurd h (by simp)
      | some r =>
        obtain ⟨pre', ws', inner', post'⟩ := r
        rw [hts] at h
        simp only [Option.map_some', Option.some.injEq, Prod.mk.injEq] at h
        obtain ⟨h1, h2, h3, h4⟩ := h
        rw [h2, h3, h4] at hts
        obtain ⟨hdec, hmac, hfail⟩ := ih pre' ws inner post hts
        refine ⟨by rw [← h1, hdec]; simp, hmac, ?_⟩
        intro t ht hne
        rw [← h1] at ht
        rcases List.suffix_cons_iff.mp ht with hh | hh
        · subst hh
          have he : c :: pre' ++ (str "tags:" ++ ws ++ '[' ::
              (inner ++ ']' :: post)) = c :: cs := by
            rw [hdec]; simp
          rw [he]
          exact hma
        · exact hfail t hh hne

/-- Computation rule for `tagsSearch` on a string with an exhibited leftmost
match. -/
theorem tagsSearch_append (pre Q ws inner post : Str)
    (hfail : ∀ t : Str, t <:+ pre → t ≠ [] → tagsMatchAt (t ++ Q) = none)
    (hQ : tagsMatchAt Q = some (ws, inner, post)) :
    tagsSearch (pre ++ Q) = some (pre, ws, inner, post) := by
  induction pre with
  | nil =>
    cases Q with
    | nil => exact absurd hQ (by simp [tagsMatchAt, str])
    | cons q qs =>
      rw [List.nil_append, tagsSearch, hQ]
  | cons c pre' ih =>
    have hid : (c :: pre') ++ Q = c :: (pre' ++ Q) := by simp
    rw [hid, tagsSearch]
    cases hQempty : pre' ++ Q with
    | nil =>
      have : Q = [] := by
        rcases List.append_eq_nil.mp hQempty with ⟨_, hq⟩
        exact hq
      subst this
      exact absurd hQ (by simp [tagsMatchAt, str])
    | cons d ds =>
      rw [← hQempty]
      have hcfail : tagsMatchAt (c :: (pre' ++ Q)) = none := by
        have he : c :: (pre' ++ Q) = (c :: pre') ++ Q := by simp
        rw [he]
        exact hfail (c :: pre') List.suffix_rfl (by simp)
      rw [hcfail]
      rw [ih (fun t ht hne => hfail t (ht.trans (pre'.suffix_cons c)) hne)]
      rfl

/-! ## `Set`-spread de-duplication lemmas -/

/-- `setDedupAux` depends on the seen accumulator only through membership. -/
theorem setDedupAux_congr :
    ∀ (l seen1 seen2 : List Str), (∀ x, x ∈ seen1 ↔ x ∈ seen2) →
      setDedupAux seen1 l = setDedupAux seen2 l := by
  intro l
  induction l with
  | nil => intro _ _ _; rfl
  | cons x xs ih =>
    intro seen1 seen2 hmem
    rw [setDedupAux, setDedupAux]
    by_cases hx : x ∈ seen1
    · rw [if_pos hx, if_pos ((hmem x).mp hx)]
      exact ih seen1 seen2 hmem
    · rw [if_neg hx, if_neg (fun hc => hx ((hmem x).mpr hc))]
      rw [ih (x :: seen1) (x :: seen2) (by intro y; simp [hmem y])]

/-- `setDedupAux seen` is `setDedup` followed by removal of seen elements. -/
theorem setDedupAux_filter :
    ∀ (l seen : List Str),
      setDedupAux seen l = (setDedup l).filter (fun x => decide (x ∉ seen)) := by
  intro l
  induction l with
  | nil => intro seen; rfl
  | cons x xs ih =>
    intro seen
    have hsd : setDedup (x :: xs) = x :: setDedupAux [x] xs := by
      rw [setDedup, setDedupAux, if_neg (by simp)]
    rw [hsd, setDedupAux]
    by_cases hx : x ∈ seen
    · rw [if_pos hx, List.filter_cons_of_neg (by simpa using hx)]
      rw [ih seen, ih [x], List.filter_filter]
      apply List.filter_congr
      intro y _
      by_cases hy : y ∈ seen
      · simp [hy]
      · have hyx : y ≠ x := fun hc => hy (hc ▸ hx)
        simp [hy, hyx]
    · rw [if_neg hx, List.filter_cons_of_pos (by simpa using hx)]
      rw [ih (x :: seen), ih [x], List.filter_filter]
      congr 1
      apply List.filter_congr
      intro y _
      by_cases hyx : y = x
      · simp [hyx]
      · simp [hyx]

/-- `setDedupAux` distributes over append, seeding the second run with the
first block. -/
theorem setDedupAux_append :
    ∀ (xs ys seen : List Str),
      setDedupAux seen (xs ++ ys) =
        setDedupAux seen xs ++ setDedupAux (xs ++ seen) ys := by
  intro xs
  induction xs with
  | nil => intro ys seen; rfl
  | cons x xs ih =>
    intro ys seen
    rw [List.cons_append, setDedupAux, setDedupAux]
    by_cases hx : x ∈ seen
    · rw [if_pos hx, if_pos hx, ih]
      congr 1
      apply setDedupAux_congr
      intro y
      constructor
      · intro hy
        rcases List.mem_append.mp hy with hy | hy
        · exact List.mem_append.mpr (Or.inl (List.mem_cons_of_mem x hy))
        · exact List.mem_append.mpr (Or.inr hy)
      · intro hy
        rcases List.mem_append.mp hy with hy | hy
        · rcases List.mem_cons.mp hy with hy | hy
          · exact hy ▸ List.mem_append.mpr (Or.inr hx)
          · exact List.mem_append.mpr (Or.inl hy)
        · exact List.mem_append.mpr (Or.inr hy)
    · rw [if_neg hx, if_neg hx, ih]
      rw [List.cons_append]
      congr 2
      apply setDedupAux_congr
      intro y
      constructor
      · intro hy
        rcases List.mem_append.mp hy with hy | hy
        · exact List.mem_cons.mpr (Or.inr (List.mem_append.mpr (Or.inl hy)))
        · rcases List.mem_cons.mp hy with hy | hy
          · exact List.mem_cons.mpr (Or.inl hy)
          · exact List.mem_cons.mpr (Or.inr (List.mem_append.mpr (Or.inr hy)))
      · intro hy
        rcases List.mem_cons.mp hy with hy | hy
        · exact List.mem_append.mpr (Or.inr (List.mem_cons.mpr (Or.inl hy)))
        · rcases List.mem_append.mp hy with hy | hy
          · exact List.mem_append.mpr (Or.inl hy)
          · exact List.mem_append.mpr
              (Or.inr (List.mem_cons.mpr (Or.inr hy)))

/-- Membership in `setDedupAux`. -/
theorem mem_setDedupAux :
    ∀ (l seen : List Str) (x : Str),
      x ∈ setDedupAux seen l ↔ (x ∈ l ∧ x ∉ seen) := by
  intro l
  induction l with
  | nil => intro seen x; simp [setDedupAux]
  | cons y ys ih =>
    intro seen x
    rw [setDedupAux]
    by_cases hy : y ∈ seen
    · rw [if_pos hy, ih]
      constructor
      · rintro ⟨h1, h2⟩; exact ⟨List.mem_cons_of_mem y h1, h2⟩
      · rintro ⟨h1, h2⟩
        rcases List.mem_cons.mp h1 with hh | hh
        · exact absurd (hh ▸ hy) h2
        · exact ⟨hh, h2⟩
    · rw [if_neg hy]
      constructor
      · intro hx
        rcases List.mem_cons.mp hx with hh | hh
        · exact ⟨hh ▸ List.mem_cons_self y ys, hh ▸ hy⟩
        · obtain ⟨h1, h2⟩ := (ih (y :: seen) x).mp hh
          exact ⟨List.mem_cons_of_mem y h1,
            fun hc => h2 (List.mem_cons_of_mem y hc)⟩
      · rintro ⟨h1, h2⟩
        rcases List.mem_cons.mp h1 with hh | hh
        · exact hh ▸ List.mem_cons_self y _
        · by_cases hxy : x = y
          · exact hxy ▸ List.mem_cons_self y _
          · exact List.mem_cons_of_mem y ((ih (y :: seen) x).mpr
              ⟨hh, by simp [hxy, h2]⟩)

/-- Membership in `setDedup`. -/
theorem mem_setDedup (l : List Str) (x : Str) : x ∈ setDedup l ↔ x ∈ l := by
  rw [setDedup, mem_setDedupAux]
  simp

/-- `setDedupAux` returns a duplicate-free list. -/
theorem setDedupAux_nodup : ∀ (l seen : List Str), (setDedupAux seen l).Nodup := by
  intro l
  induction l with
  | nil => intro seen; exact List.nodup_nil
  | cons x xs ih =>
    intro seen
    rw [setDedupAux]
    by_cases hx : x ∈ seen
    · rw [if_pos hx]; exact ih seen
    · rw [if_neg hx]
      refine List.nodup_cons.mpr ⟨?_, ih (x :: seen)⟩
      intro hc
      exact ((mem_setDedupAux xs (x :: seen) x).mp hc).2
        (List.mem_cons_self x seen)

/-- `setDedup` returns a duplicate-free list. -/
theorem setDedup_nodup (l : List Str) : (setDedup l).Nodup :=
  setDedupAux_nodup l []

/-- `setDedup` fixes duplicate-free lists. -/
theorem setDedup_eq_self : ∀ l : List Str, l.Nodup → setDedup l = l := by
  have aux : ∀ (l seen : List Str), l.Nodup → (∀ x ∈ l, x ∉ seen) →
      setDedupAux seen l = l := by
    intro l
    induction l with
    | nil => intro seen _ _; rfl
    | cons x xs ih =>
      intro seen hnd hdis
      rw [setDedupAux, if_neg (hdis x (List.mem_cons_self x xs))]
      congr 1
      apply ih (x :: seen) (List.nodup_cons.mp hnd).2
      intro y hy
      intro hc
      rcases List.mem_cons.mp hc with hh | hh
      · exact (List.nodup_cons.mp hnd).1 (hh ▸ hy)
      · exact hdis y (List.mem_cons_of_mem x hy) hh
  intro l h
  exact aux l [] h (by simp)

/-- Adding only already-present elements leaves a duplicate-free list
unchanged under `setDedup`. -/
theorem setDedup_append_absorb (merged tags : List Str) (hnd : merged.Nodup)
    (hsub : ∀ t ∈ tags, t ∈ merged) : setDedup (merged ++ tags) = merged := by
  rw [setDedup, setDedupAux_append]
  have h1 : setDedupAux [] merged = merged := setDedup_eq_self merged hnd
  rw [h1]
  have h2 : setDedupAux (merged ++ []) tags = [] := by
    rw [setDedupAux_filter, List.filter_eq_nil_iff]
    intro a ha
    have hma : a ∈ tags := (mem_setDedup tags a).mp ha
    simp [hsub a hma]
  rw [h2, List.append_nil]

/-! ## Character provenance lemmas (for the `$`-substitution provisos) -/

/-- Characters of `jsTrim l` come from `l`. -/
theorem mem_of_mem_jsTrim (l : Str) (c : Char) (h : c ∈ jsTrim l) : c ∈ l := by
  rw [jsTrim] at h
  rw [List.mem_reverse] at h
  have h1 := (List.dropWhile_sublist (l := (l.dropWhile isJsWs).reverse)
    (p := isJsWs)).mem h
  rw [List.mem_reverse] at h1
  exact (List.dropWhile_sublist (l := l) (p := isJsWs)).mem h1

/-- Characters of `stripQuotes l` come from `l`. -/
theorem mem_of_mem_stripQuotes (l : Str) (c : Char) (h : c ∈ stripQuotes l) :
    c ∈ l :=
  (List.mem_filter.mp h).1

/-- Characters of the pieces produced by `splitOnComma` come from the
input. -/
theorem mem_of_mem_splitOnComma :
    ∀ (l t : Str) (c : Char), t ∈ splitOnComma l → c ∈ t → c ∈ l := by
  intro l
  induction l with
  | nil =>
    intro t c ht hc
    rw [splitOnComma] at ht
    simp only [List.mem_singleton] at ht
    subst ht
    exact absurd hc (by simp)
  | cons d ds ih =>
    intro t c ht hc
    rw [splitOnComma] at ht
    split at ht
    · rcases List.mem_cons.mp ht with hh | hh
      · subst hh; exact absurd hc (by simp)
      · exact List.mem_cons_of_mem d (ih t c hh hc)
    · split at ht
      · rename_i heq
        exact absurd heq (by
          intro hcontra
          cases hs : splitOnComma ds with
          | nil => exact absurd hs (by
              cases ds with
              | nil => simp [splitOnComma]
              | cons e es =>
                rw [splitOnComma]
                split
                · simp
                · split
                  · simp_all
                  · simp)
          | cons a as => rw [hs] at hcontra; exact absurd hcontra (by simp))
      · rename_i a as heq
        rcases List.mem_cons.mp ht with hh | hh
        · subst hh
          rcases List.mem_cons.mp hc with hh | hh
          · exact hh ▸ List.mem_cons_self d ds
          · exact List.mem_cons_of_mem d
              (ih a c (heq ▸ List.mem_cons_self a as) hh)
        · exact List.mem_cons_of_mem d
            (ih t c (heq ▸ List.mem_cons_of_mem a hh) hc)

/-- Characters of the tags parsed from a field come from the field text. -/
theorem mem_of_mem_parseTags (inner t : Str) (c : Char)
    (ht : t ∈ parseTags inner) (hc : c ∈ t) : c ∈ inner := by
  rw [parseTags] at ht
  obtain ⟨u, hu, hmap⟩ := List.mem_map.mp ht
  subst hmap
  exact mem_of_mem_splitOnComma inner u c hu
    (mem_of_mem_jsTrim u c (mem_of_mem_stripQuotes _ c hc))

/-- Unfolding rule for `serializeTags` on two or more tags. -/
theorem serializeTags_cons_cons (t u : Str) (rest : List Str) :
    serializeTags (t :: u :: rest) =
      '"' :: (t ++ ['"']) ++ str ", " ++ serializeTags (u :: rest) := rfl

/-- Characters of `serializeTags ts` are quotes, commas, spaces, or
characters of the tags. -/
theorem mem_serializeTags :
    ∀ (ts : List Str) (c : Char), c ∈ serializeTags ts →
      c = '"' ∨ c = ',' ∨ c = ' ' ∨ ∃ t ∈ ts, c ∈ t := by
  intro ts
  induction ts with
  | nil => intro c hc; exact absurd hc (by simp [serializeTags])
  | cons t rest ih =>
    intro c hc
    cases rest with
    | nil =>
      rw [serializeTags] at hc
      rcases List.mem_cons.mp hc with hh | hh
      · exact Or.inl hh
      · rcases List.mem_append.mp hh with hh | hh
        · exact Or.inr (Or.inr (Or.inr ⟨t, List.mem_singleton.mpr rfl, hh⟩))
        · exact Or.inl (List.mem_singleton.mp hh)
    | cons u rest' =>
      rw [serializeTags_cons_cons] at hc
      rcases List.mem_append.mp hc with hh | hh
      · rcases List.mem_append.mp hh with hh | hh
        · rcases List.mem_cons.mp hh with hh | hh
          · exact Or.inl hh
          · rcases List.mem_append.mp hh with hh | hh
            · exact Or.inr (Or.inr (Or.inr ⟨t, List.mem_cons_self t _, hh⟩))
            · exact Or.inl (List.mem_singleton.mp hh)
        · rcases List.mem_cons.mp hh with hh | hh
          · exact Or.inr (Or.inl hh)
          · exact Or.inr (Or.inr (Or.inl (List.mem_singleton.mp hh)))
      · rcases ih c hh with h1 | h1 | h1 | ⟨v, hv, hcv⟩
        · exact Or.inl h1
        · exact Or.inr (Or.inl h1)
        · exact Or.inr (Or.inr (Or.inl h1))
        · exact Or.inr (Or.inr (Or.inr ⟨v, List.mem_cons_of_mem t hv, hcv⟩))

/-- If no tag contains `'$'`, neither does the serialized field value. -/
theorem serializeTags_no_dollar (ts : List Str) (h : ∀ t ∈ ts, '$' ∉ t) :
    '$' ∉ serializeTags ts := by
  intro hc
  rcases mem_serializeTags ts '$' hc with h1 | h1 | h1 | ⟨t, ht, hct⟩
  · exact absurd h1 (by decide)
  · exact absurd h1 (by decide)
  · exact absurd h1 (by decide)
  · exact h t ht hct

/-- First-seen-order union: `setDedup` over an append keeps the (deduped)
first block, then the new elements of the second block in their order. -/
theorem setDedup_append (a b : List Str) :
    setDedup (a ++ b) =
      setDedup a ++ (setDedup b).filter (fun x => decide (x ∉ a)) := by
  rw [setDedup, setDedupAux_append]
  congr 1
  rw [setDedupAux_congr b (a ++ []) a (by simp), setDedupAux_filter]

/-- The header-present, field-present branch of `applyTags`: when neither
the header body nor any new tag contains `'$'` (so both `$`-substitutions
are the identity), the result replaces exactly the matched tags field with
the serialized union, leaving `pre`, `post` and `rest` verbatim. -/
theorem applyTags_field (content : Str) (tags : List Str)
    (body rest pre ws inner post : Str)
    (hfm : fmMatch content = some (body, rest))
    (hts : tagsSearch body = some (pre, ws, inner, post))
    (hd1 : '$' ∉ body) (hd2 : ∀ t ∈ tags, '$' ∉ t) :
    applyTags content tags =
      str "---\n" ++ pre ++
        (str "tags: [" ++ serializeTags (setDedup (parseTags inner ++ tags))
          ++ str "]") ++ post ++ (str "\n---" ++ rest) := by
  obtain ⟨hcontent, _⟩ := fmMatch_eq_some _ _ _ hfm
  obtain ⟨hbody, _, _⟩ := tagsSearch_eq_some _ _ _ _ _ hts
  have hdpre : '$' ∉ pre := fun hc =>
    hd1 (hbody ▸ List.mem_append.mpr (Or.inl hc))
  have hdinner : '$' ∉ inner := fun hc =>
    hd1 (hbody ▸ List.mem_append.mpr (Or.inr (by
      refine List.mem_append.mpr (Or.inr ?_)
      refine List.mem_cons_of_mem _ ?_
      exact List.mem_append.mpr (Or.inl hc))))
  have hdpost : '$' ∉ post := fun hc =>
    hd1 (hbody ▸ List.mem_append.mpr (Or.inr (by
      refine List.mem_append.mpr (Or.inr ?_)
      refine List.mem_cons_of_mem _ ?_
      exact List.mem_append.mpr (Or.inr (List.mem_cons_of_mem _ hc)))))
  have hdmerged : ∀ t ∈ setDedup (parseTags inner ++ tags), '$' ∉ t := by
    intro t ht hc
    rcases List.mem_append.mp ((mem_setDedup _ _).mp ht) with hh | hh
    · exact hdinner (mem_of_mem_parseTags inner t '$' hh hc)
    · exact hd2 t hh hc
  have hdnf : '$' ∉ (str "tags: [" ++
      serializeTags (setDedup (parseTags inner ++ tags)) ++ str "]") := by
    intro hc
    rcases List.mem_append.mp hc with hh | hh
    · rcases List.mem_append.mp hh with hh | hh
      · exact absurd hh (by decide)
      · exact serializeTags_no_dollar _ hdmerged hh
    · exact absurd hh (by decide)
  have hdrepl : '$' ∉ (str "---\n" ++
      (pre ++ (str "tags: [" ++
        serializeTags (setDedup (parseTags inner ++ tags)) ++ str "]") ++
        post) ++ str "\n---") := by
    intro hc
    rcases List.mem_append.mp hc with hh | hh
    · rcases List.mem_append.mp hh with hh | hh
      · exact absurd hh (by decide)
      · rcases List.mem_append.mp hh with hh | hh
        · rcases List.mem_append.mp hh with hh | hh
          · exact hdpre hh
          · exact hdnf hh
        · exact hdpost hh
    · exact absurd hh (by decide)
  simp only [applyTags, hfm, hts]
  rw [getSubstitution_id _ _ _ _ _ hdnf]
  have hc0 : content = (str "---\n" ++ body ++ str "\n---") ++ rest := by
    rw [hcontent]
  rw [hc0, replaceFirstStr_prefix, getSubstitution_id _ _ _ _ _ hdrepl]
  simp

/-- The header-present, field-absent branch of `applyTags`: the new tag line
is appended to the end of the (verbatim) body. -/
theorem applyTags_append_field (content : Str) (tags : List Str)
    (body rest : Str)
    (hfm : fmMatch content = some (body, rest))
    (hnone : tagsSearch body = none)
    (hd1 : '$' ∉ body) (hd2 : ∀ t ∈ tags, '$' ∉ t) :
    applyTags content tags =
      str "---\n" ++ body ++
        (str "\ntags: [" ++ serializeTags tags ++ str "]") ++
        (str "\n---" ++ rest) := by
  obtain ⟨hcontent, _⟩ := fmMatch_eq_some _ _ _ hfm
  have hdrepl : '$' ∉ (str "---\n" ++
      (body ++ str "\ntags: [" ++ serializeTags tags ++ str "]") ++
      str "\n---") := by
    intro hc
    simp only [List.mem_append] at hc
    rcases hc with ((hh | (((hh | hh) | hh) | hh)) | hh)
    · exact absurd hh (by decide)
    · exact hd1 hh
    · exact absurd hh (by decide)
    · exact serializeTags_no_dollar _ hd2 hh
    · exact absurd hh (by decide)
    · exact absurd hh (by decide)
  simp only [applyTags, hfm, hnone]
  have hc0 : content = (str "---\n" ++ body ++ str "\n---") ++ rest := by
    rw [hcontent]
  rw [hc0, replaceFirstStr_prefix, getSubstitution_id _ _ _ _ _ hdrepl]
  simp

/-- C1 (amended with the `$`-proviso): for every note whose header contains
a tags field and every tag list such that neither the header body nor any
new tag contains a dollar sign, `applyTags` replaces the tags field's value
with the serialized union of the existing and the new tags, de-duplicated by
exact string equality; the union is duplicate-free, contains exactly the
existing and new tags, and keeps first-seen order: the (deduped) existing
tags first, then the new tags in the order supplied. -/
theorem c1_union_merge (content : Str) (tags : List Str)
    (body rest pre ws inner post : Str)
    (hfm : fmMatch content = some (body, rest))
    (hts : tagsSearch body = some (pre, ws, inner, post))
    (hd1 : '$' ∉ body) (hd2 : ∀ t ∈ tags, '$' ∉ t) :
    applyTags content tags =
      str "---\n" ++ pre ++
        (str "tags: [" ++ serializeTags (setDedup (parseTags inner ++ tags))
          ++ str "]") ++ post ++ (str "\n---" ++ rest) ∧
    (setDedup (parseTags inner ++ tags)).Nodup ∧
    (∀ x : Str, x ∈ setDedup (parseTags inner ++ tags) ↔
      x ∈ parseTags inner ∨ x ∈ tags) ∧
    setDedup (parseTags inner ++ tags) =
      setDedup (parseTags inner) ++
        (setDedup tags).filter (fun x => decide (x ∉ parseTags inner)) :=
  ⟨applyTags_field content tags body rest pre ws inner post hfm hts hd1 hd2,
   setDedup_nodup _,
   fun x => by rw [mem_setDedup]; exact List.mem_append,
   setDedup_append _ _⟩

/-- Witness for C1 at the spec's example: existing tags `["a","b"]` merged
with new tags `["b","c"]` yield the field `["a", "b", "c"]` in that order. -/
theorem c1_union_merge_witness :
    applyTags (str "---\ntags: [\"a\", \"b\"]\n---\nx") [str "b", str "c"] =
      str "---\ntags: [\"a\", \"b\", \"c\"]\n---\nx" := by
  have h := (c1_union_merge (str "---\ntags: [\"a\", \"b\"]\n---\nx")
    [str "b", str "c"] (str "tags: [\"a\", \"b\"]") (str "\nx")
    [] [' '] (str "\"a\", \"b\"") []
    (by decide) (by decide) (by decide) (by decide)).1
  rw [h]
  decide

/-- Counterexample to C1 as stated: a new tag containing `$&` is expanded by
the `$`-substitution of `String.prototype.replace`, so the written field is
not the union of the existing and new tags. -/
theorem c1_union_merge_cex :
    applyTags (str "---\ntags: [a]\n---\n") [str "$&"] =
      str "---\ntags: [\"a\", \"tags: [a]\"]\n---\n" ∧
    applyTags (str "---\ntags: [a]\n---\n") [str "$&"] ≠
      str "---\ntags: [\"a\", \"$&\"]\n---\n" :=
  ⟨by decide, by decide⟩

/-- C4 (amended): for a note with a header and tags such that neither the
header body nor any tag contains a dollar sign, `applyTags` preserves
verbatim, in order, all header text outside the single replaced (or
appended) tags-field match, and leaves all text after the header untouched.
(The match may span several header lines when the whitespace after `tags:`
contains line breaks; text inside the match is not preserved.) -/
theorem c4_frame_preservation (content : Str) (tags : List Str)
    (body rest : Str)
    (hfm : fmMatch content = some (body, rest))
    (hd1 : '$' ∉ body) (hd2 : ∀ t ∈ tags, '$' ∉ t) :
    (∀ pre ws inner post : Str,
      tagsSearch body = some (pre, ws, inner, post) →
      applyTags content tags =
        str "---\n" ++ pre ++
          (str "tags: [" ++
            serializeTags (setDedup (parseTags inner ++ tags)) ++ str "]") ++
          post ++ (str "\n---" ++ rest)) ∧
    (tagsSearch body = none →
      applyTags content tags =
        str "---\n" ++ body ++
          (str "\ntags: [" ++ serializeTags tags ++ str "]") ++
          (str "\n---" ++ rest)) :=
  ⟨fun pre ws inner post hts =>
      applyTags_field content tags body rest pre ws inner post hfm hts hd1 hd2,
   fun hnone =>
      applyTags_append_field content tags body rest hfm hnone hd1 hd2⟩

/-- Witness for C4: a header with an unrelated `aliases` field on its own
line keeps that field verbatim through a tag merge. -/
theorem c4_frame_preservation_witness :
    applyTags (str "---\naliases: [\"foo\"]\ntags: [\"a\"]\n---\nbody") [str "x"] =
      str "---\n" ++ str "aliases: [\"foo\"]\n" ++
        (str "tags: [" ++ str "\"a\", \"x\"" ++ str "]") ++ [] ++
        (str "\n---" ++ str "\nbody") := by
  have h := (c4_frame_preservation
    (str "---\naliases: [\"foo\"]\ntags: [\"a\"]\n---\nbody") [str "x"]
    (str "aliases: [\"foo\"]\ntags: [\"a\"]") (str "\nbody")
    (by decide) (by decide) (by decide)).1
    (str "aliases: [\"foo\"]\n") [' '] (str "\"a\"") [] (by decide)
  rw [h]
  decide

/-- Counterexample to C4 as stated: when the whitespace after `tags:`
contains a newline, the regex match spans two header lines and swallows an
unrelated field sharing the second line, so that field is not retained. -/
theorem c4_frame_preservation_cex :
    applyTags (str "---\ntags:\n[x] aliases: [\"foo\"]\n---\nrest") [str "x"] =
      str "---\ntags: [\"x] aliases: [foo\", \"x\"]\n---\nrest" ∧
    ¬ (str "aliases: [\"foo\"]") <:+:
      applyTags (str "---\ntags:\n[x] aliases: [\"foo\"]\n---\nrest") [str "x"] :=
  ⟨by decide, by decide⟩

/-! ## Idempotence machinery (claim C2) -/

/-- If `dropWhile` consumes everything, every element satisfied the
predicate. -/
theorem all_of_dropWhile_nil (p : Char → Bool) (l : Str)
    (h : l.dropWhile p = []) : ∀ x ∈ l, p x = true := by
  intro x hx
  have hl : l.takeWhile p = l := by
    conv_rhs => rw [← List.takeWhile_append_dropWhile p l]
    rw [h, List.append_nil]
  exact List.mem_takeWhile_imp (hl ▸ hx)

/-- Unfolded form of `tagsMatchAt` (the `let`s zeta-reduced). -/
theorem tagsMatchAt_unfold (s : Str) :
    tagsMatchAt s =
      if s.take 5 = str "tags:" then
        match (s.drop 5).dropWhile isJsWs with
        | '[' :: r3 =>
          match lastBrk (r3.takeWhile (fun c => !isLineTerm c)) with
          | some (inner, afterBrk) =>
              some ((s.drop 5).takeWhile isJsWs, inner,
                afterBrk ++ r3.dropWhile (fun c => !isLineTerm c))
          | none => none
        | _ => none
      else none := rfl

/-- The `take 5` test of `tagsMatchAt` is a prefix test. -/
theorem take5_tags_iff (s : Str) :
    (s.take 5 = str "tags:") ↔ (str "tags:") <+: s := by
  constructor
  · intro h
    rw [List.prefix_iff_eq_take]
    have h5 : (str "tags:").length = 5 := rfl
    rw [h5, h]
  · intro h
    have h0 := List.prefix_iff_eq_take.mp h
    have h5 : (str "tags:").length = 5 := rfl
    rw [h5] at h0
    exact h0.symm

/-- A start position strictly inside the last four characters before a
`"tags:"` literal cannot match: the `'t'` of the literal lands where the
pattern needs `'a'`, `'g'`, `'s'` or `':'`. -/
theorem tagsMatchAt_short (b R2 post : Str) (hb : b ≠ []) (h4 : b.length ≤ 4) :
    tagsMatchAt (b ++ (str "tags:" ++ R2) ++ post) = none := by
  rw [tagsMatchAt_unfold, if_neg]
  intro hw
  have hpre := (take5_tags_iff _).mp hw
  match b, hb, h4 with
  | [c1], _, _ =>
    simp only [str, String.data, List.cons_append, List.nil_append,
      List.append_assoc] at hpre
    rcases List.cons_prefix_cons.mp hpre with ⟨_, h2⟩
    rcases List.cons_prefix_cons.mp h2 with ⟨hf, _⟩
    exact absurd hf (by decide)
  | [c1, c2], _, _ =>
    simp only [str, String.data, List.cons_append, List.nil_append,
      List.append_assoc] at hpre
    rcases List.cons_prefix_cons.mp hpre with ⟨_, h2⟩
    rcases List.cons_prefix_cons.mp h2 with ⟨_, h3⟩
    rcases List.cons_prefix_cons.mp h3 with ⟨hf, _⟩
    exact absurd hf (by decide)
  | [c1, c2, c3], _, _ =>
    simp only [str, String.data, List.cons_append, List.nil_append,
      List.append_assoc] at hpre
    rcases List.cons_prefix_cons.mp hpre with ⟨_, h2⟩
    rcases List.cons_prefix_cons.mp h2 with ⟨_, h3⟩
    rcases List.cons_prefix_cons.mp h3 with ⟨_, h4'⟩
    rcases List.cons_prefix_cons.mp h4' with ⟨hf, _⟩
    exact absurd hf (by decide)
  | [c1, c2, c3, c4], _, _ =>
    simp only [str, String.data, List.cons_append, List.nil_append,
      List.append_assoc] at hpre
    rcases List.cons_prefix_cons.mp hpre with ⟨_, h2⟩
    rcases List.cons_prefix_cons.mp h2 with ⟨_, h3⟩
    rcases List.cons_prefix_cons.mp h3 with ⟨_, h4'⟩
    rcases List.cons_prefix_cons.mp h4' with ⟨_, h5⟩
    rcases List.cons_prefix_cons.mp h5 with ⟨hf, _⟩
    exact absurd hf (by decide)

/-- Transfer of match failure: replacing a single-line tags-field match `M`
(here `M = "tags:" ++ M2`, containing no line terminator and a `']'`) by any
other text starting with `"tags:"` cannot create a new match at an earlier
start position.  Any position whose match would reach into the replacement
would, in the original string, have found the `']'` of `M` on the same line
and matched there — contradicting failure in the original. -/
theorem tagsMatchAt_transfer (b M2 R2 post : Str) (hb : b ≠ [])
    (hMlt : ∀ c ∈ (str "tags:" ++ M2), isLineTerm c = false)
    (hMbrk : ']' ∈ M2)
    (hnone : tagsMatchAt (b ++ (str "tags:" ++ M2) ++ post) = none) :
    tagsMatchAt (b ++ (str "tags:" ++ R2) ++ post) = none := by
  by_cases hlen : b.length ≤ 4
  · exact tagsMatchAt_short b R2 post hb hlen
  · match b, hb, hlen with
    | [c1], _, hx => exact absurd (by simp) hx
    | [c1, c2], _, hx => exact absurd (by simp) hx
    | [c1, c2, c3], _, hx => exact absurd (by simp) hx
    | [c1, c2, c3, c4], _, hx => exact absurd (by simp) hx
    | d1 :: d2 :: d3 :: d4 :: d5 :: b', _, _ =>
      by_cases hw : ([d1, d2, d3, d4, d5] : Str) = str "tags:"
      case neg =>
        rw [tagsMatchAt_unfold, if_neg]
        intro hw5
        apply hw
        have hpre := (take5_tags_iff _).mp hw5
        simp only [List.cons_append, List.append_assoc] at hpre
        rw [show (str "tags:") = 't' :: 'a' :: 'g' :: 's' :: ':' :: [] from rfl] at hpre ⊢
        rcases List.cons_prefix_cons.mp hpre with ⟨e1, h2⟩
        rcases List.cons_prefix_cons.mp h2 with ⟨e2, h3⟩
        rcases List.cons_prefix_cons.mp h3 with ⟨e3, h4'⟩
        rcases List.cons_prefix_cons.mp h4' with ⟨e4, h5'⟩
        rcases List.cons_prefix_cons.mp h5' with ⟨e5, -⟩
        rw [← e1, ← e2, ← e3, ← e4, ← e5]
      case pos =>
        have hd : d1 = 't' ∧ d2 = 'a' ∧ d3 = 'g' ∧ d4 = 's' ∧ d5 = ':' := by
          rw [show (str "tags:") = 't' :: 'a' :: 'g' :: 's' :: ':' :: [] from rfl] at hw
          simp only [List.cons.injEq, and_true] at hw
          exact hw
        obtain ⟨e1, e2, e3, e4, e5⟩ := hd
        subst e1; subst e2; subst e3; subst e4; subst e5
        have hsplit : ∀ X : Str,
            (('t':: 'a':: 'g':: 's':: ':'::b') ++ X ++ post) =
              str "tags:" ++ (b' ++ (X ++ post)) := by
          intro X
          simp [str]
        rw [hsplit] at hnone
        rw [hsplit]
        have htake : ∀ y : Str, ((str "tags:") ++ y).take 5 = str "tags:" :=
          fun y => List.take_left' rfl
        have hdrop : ∀ y : Str, ((str "tags:") ++ y).drop 5 = y :=
          fun y => List.drop_left' rfl
        rw [tagsMatchAt_unfold, htake, hdrop, if_pos rfl] at hnone
        rw [tagsMatchAt_unfold, htake, hdrop, if_pos rfl]
        cases hdw : b'.dropWhile isJsWs with
        | nil =>
          have hall := all_of_dropWhile_nil isJsWs b' hdw
          have hnew : (b' ++ ((str "tags:" ++ R2) ++ post)).dropWhile isJsWs =
              't' :: (('a':: 'g':: 's':: ':'::R2) ++ post) := by
            rw [dropWhile_append_all isJsWs b' _ hall]
            rw [show ((str "tags:" ++ R2) ++ post) =
              't' :: (('a':: 'g':: 's':: ':'::R2) ++ post) by simp [str]]
            rw [List.dropWhile_cons_of_neg (by decide)]
          rw [hnew]
          rfl
        | cons c b₃ =>
          have hne : b'.dropWhile isJsWs ≠ [] := by rw [hdw]; simp
          have hdwap : ∀ X : Str,
              (b' ++ X).dropWhile isJsWs = c :: (b₃ ++ X) := by
            intro X
            rw [dropWhile_append_of_ne_nil isJsWs b' X hne, hdw]
            rfl
          rw [hdwap] at hnone
          rw [hdwap]
          by_cases hc : c = '['
          case neg =>
            split
            · rename_i r3 heq
              exact absurd (List.cons.injEq .. ▸ heq).1 hc
            · rfl
          case pos =>
            subst hc
            simp only [] at hnone ⊢
            cases hlt : b₃.dropWhile (fun c => !isLineTerm c) with
            | cons e b₄ =>
              have hlne : b₃.dropWhile (fun c => !isLineTerm c) ≠ [] := by
                rw [hlt]; simp
              have hline : ∀ X : Str,
                  (b₃ ++ X).takeWhile (fun c => !isLineTerm c) =
                    b₃.takeWhile (fun c => !isLineTerm c) :=
                fun X => takeWhile_append_of_ne_nil _ b₃ X hlne
              rw [hline] at hnone
              rw [hline]
              cases hlb : lastBrk (b₃.takeWhile (fun c => !isLineTerm c)) with
              | some p =>
                rw [hlb] at hnone
                exact absurd hnone (by simp)
              | none =>
                rfl
            | nil =>
              exfalso
              have hall₃ := all_of_dropWhile_nil _ b₃ hlt
              have hMall : ∀ x ∈ (str "tags:" ++ M2),
                  (fun c => !isLineTerm c) x = true := by
                intro x hx
                simp [hMlt x hx]
              have hline : (b₃ ++ ((str "tags:" ++ M2) ++ post)).takeWhile
                  (fun c => !isLineTerm c) =
                    b₃ ++ ((str "tags:" ++ M2) ++
                      post.takeWhile (fun c => !isLineTerm c)) := by
                rw [takeWhile_append_all _ b₃ _ hall₃,
                  takeWhile_append_all _ _ _ hMall]
              rw [hline] at hnone
              have hbrk : ']' ∈ b₃ ++ ((str "tags:" ++ M2) ++
                  post.takeWhile (fun c => !isLineTerm c)) := by
                refine List.mem_append.mpr (Or.inr ?_)
                refine List.mem_append.mpr (Or.inl ?_)
                exact List.mem_append.mpr (Or.inr hMbrk)
              cases hlb : lastBrk (b₃ ++ ((str "tags:" ++ M2) ++
                  post.takeWhile (fun c => !isLineTerm c))) with
              | some p =>
                rw [hlb] at hnone
                exact absurd hnone (by simp)
              | none =>
                exact (lastBrk_eq_none _).mp hlb hbrk

/-- A "simple" tag character: serialization and re-parsing are transparent
for tags made of these (no quote stripped, no comma split, no line break
ending the matched line, no `$`-escape expanded). -/
def simpleChar (c : Char) : Bool :=
  !(c = '"' || c = '\'' || c = ',' || c = '$' || isLineTerm c)

/-- A tag all of whose characters are simple. -/
def SimpleTag (t : Str) : Prop := ∀ c ∈ t, simpleChar c = true

/-- `splitOnComma` never returns the empty list of pieces. -/
theorem splitOnComma_ne_nil : ∀ l : Str, splitOnComma l ≠ [] := by
  intro l
  cases l with
  | nil => simp [splitOnComma]
  | cons c cs =>
    rw [splitOnComma]
    split
    · simp
    · split
      · simp
      · simp

/-- `splitOnComma` on a comma-free string is the single piece. -/
theorem splitOnComma_no_comma : ∀ l : Str, ',' ∉ l → splitOnComma l = [l] := by
  intro l
  induction l with
  | nil => intro _; rfl
  | cons c cs ih =>
    intro h
    have hc : c ≠ ',' := fun hc => h (hc ▸ List.mem_cons_self c cs)
    rw [splitOnComma, if_neg hc, ih (fun hm => h (List.mem_cons_of_mem c hm))]

/-- `splitOnComma` splits off a comma-free first piece at the first comma. -/
theorem splitOnComma_append : ∀ a rest : Str, ',' ∉ a →
    splitOnComma (a ++ ',' :: rest) = a :: splitOnComma rest := by
  intro a
  induction a with
  | nil => intro rest _; rw [List.nil_append, splitOnComma, if_pos rfl]
  | cons c cs ih =>
    intro rest h
    have hc : c ≠ ',' := fun hc => h (hc ▸ List.mem_cons_self c cs)
    rw [List.cons_append, splitOnComma, if_neg hc,
      ih rest (fun hm => h (List.mem_cons_of_mem c hm))]

/-- A leading space disappears in `parseTags` (it is trimmed from the first
piece). -/
theorem parseTags_space (l : Str) : parseTags (' ' :: l) = parseTags l := by
  rw [parseTags, parseTags]
  have hsp : splitOnComma (' ' :: l) =
      match splitOnComma l with
      | [] => [[' ']]
      | a :: as => (' ' :: a) :: as := by
    rw [splitOnComma, if_neg (by decide)]
  cases hs : splitOnComma l with
  | nil => exact absurd hs (splitOnComma_ne_nil l)
  | cons a as =>
    rw [hs] at hsp
    rw [hsp]
    simp only [List.map_cons]
    congr 2

/-- `jsTrim` fixes a double-quoted string. -/
theorem jsTrim_quoted (t : Str) : jsTrim ('"' :: (t ++ ['"'])) = '"' :: (t ++ ['"']) := by
  simp only [jsTrim]
  rw [List.dropWhile_cons_of_neg (by decide)]
  have hrev : ('"' :: (t ++ ['"'])).reverse = '"' :: (t.reverse ++ ['"']) := by
    simp
  rw [hrev, List.dropWhile_cons_of_neg (by decide), ← hrev, List.reverse_reverse]

/-- `stripQuotes` recovers a quote-free tag from its quoted form. -/
theorem stripQuotes_quoted (t : Str) (h : '"' ∉ t ∧ '\'' ∉ t) :
    stripQuotes ('"' :: (t ++ ['"'])) = t := by
  simp only [stripQuotes]
  rw [List.filter_cons_of_neg (by decide), List.filter_append,
    List.filter_cons_of_neg (by decide)]
  rw [List.filter_eq_self.mpr]
  · simp
  · intro c hc
    have h1 : c ≠ '\'' := fun hq => h.2 (hq ▸ hc)
    have h2 : c ≠ '"' := fun hq => h.1 (hq ▸ hc)
    simp [h1, h2]

/-- Simple tags contain neither quotes nor commas. -/
theorem simpleTag_facts (t : Str) (h : SimpleTag t) :
    '"' ∉ t ∧ '\'' ∉ t ∧ ',' ∉ t ∧ '$' ∉ t ∧ ∀ c ∈ t, isLineTerm c = false := by
  refine ⟨fun hc => ?_, fun hc => ?_, fun hc => ?_, fun hc => ?_, fun c hc => ?_⟩
  · have := h '"' hc; simp [simpleChar] at this
  · have := h '\'' hc; simp [simpleChar] at this
  · have := h ',' hc; simp [simpleChar] at this
  · have := h '$' hc; simp [simpleChar] at this
  · have := h c hc
    simp only [simpleChar, Bool.not_eq_true'] at this
    rcases Bool.or_eq_false_iff.mp this with ⟨-, h2⟩
    exact h2

/-- Round trip: parsing the serialized form of a nonempty list of simple
tags returns exactly those tags. -/
theorem parseTags_serializeTags :
    ∀ ts : List Str, ts ≠ [] → (∀ t ∈ ts, SimpleTag t) →
      parseTags (serializeTags ts) = ts := by
  intro ts
  induction ts with
  | nil => intro h _; exact absurd rfl h
  | cons t rest ih =>
    intro _ hsimple
    obtain ⟨hq, hq', hcm, -, -⟩ :=
      simpleTag_facts t (hsimple t (List.mem_cons_self t rest))
    have hnc : ',' ∉ ('"' :: (t ++ ['"'])) := by
      intro hc
      rcases List.mem_cons.mp hc with hh | hh
      · exact absurd hh.symm (by decide)
      · rcases List.mem_append.mp hh with hh | hh
        · exact hcm hh
        · exact absurd (List.mem_singleton.mp hh).symm (by decide)
    cases rest with
    | nil =>
      rw [serializeTags, parseTags, splitOnComma_no_comma _ hnc]
      simp only [List.map_cons, List.map_nil]
      rw [jsTrim_quoted, stripQuotes_quoted t ⟨hq, hq'⟩]
    | cons u rest' =>
      rw [serializeTags_cons_cons]
      have hshape : ('"' :: (t ++ ['"'])) ++ str ", " ++
          serializeTags (u :: rest') =
          ('"' :: (t ++ ['"'])) ++ (',' :: (' ' :: serializeTags (u :: rest'))) := by
        simp [str]
      rw [hshape, parseTags, splitOnComma_append _ _ hnc]
      simp only [List.map_cons]
      rw [jsTrim_quoted, stripQuotes_quoted t ⟨hq, hq'⟩]
      have htail := parseTags_space (serializeTags (u :: rest'))
      rw [parseTags] at htail
      rw [htail]
      rw [ih (by simp) (fun v hv => hsimple v (List.mem_cons_of_mem t hv))]

/-- The serialized form of simple tags contains no line terminator. -/
theorem serializeTags_no_lineterm (ts : List Str) (h : ∀ t ∈ ts, SimpleTag t) :
    ∀ c ∈ serializeTags ts, isLineTerm c = false := by
  intro c hc
  rcases mem_serializeTags ts c hc with h1 | h1 | h1 | ⟨t, ht, hct⟩
  · subst h1; decide
  · subst h1; decide
  · subst h1; decide
  · exact (simpleTag_facts t (h t ht)).2.2.2.2 c hct

/-- The serialized form of simple tags contains no dollar sign. -/
theorem serializeTags_no_dollar_simple (ts : List Str)
    (h : ∀ t ∈ ts, SimpleTag t) : '$' ∉ serializeTags ts :=
  serializeTags_no_dollar ts (fun t ht => (simpleTag_facts t (h t ht)).2.2.2.1)

/-- `take 5` over a `"tags:"` prefix. -/
theorem take5_tags (y : Str) : (str "tags:" ++ y).take 5 = str "tags:" :=
  List.take_left' rfl

/-- `drop 5` over a `"tags:"` prefix. -/
theorem drop5_tags (y : Str) : (str "tags:" ++ y).drop 5 = y :=
  List.drop_left' rfl

/-- Matching the regex at a freshly serialized field: it matches with a
single space of whitespace, the serialized value as capture, and the
remainder untouched (provided the remainder's first line has no `']'`). -/
theorem tagsMatchAt_field (J post : Str)
    (hJ : ∀ c ∈ J, isLineTerm c = false)
    (hpost : ']' ∉ post.takeWhile (fun c => !isLineTerm c)) :
    tagsMatchAt (str "tags: [" ++ (J ++ ']' :: post)) = some ([' '], J, post) := by
  have hshape : str "tags: [" ++ (J ++ ']' :: post) =
      str "tags:" ++ (' ' :: '[' :: (J ++ ']' :: post)) := by
    simp [str]
  rw [hshape, tagsMatchAt_unfold, take5_tags, if_pos rfl, drop5_tags]
  have hdw : (' ' :: '[' :: (J ++ ']' :: post)).dropWhile isJsWs =
      '[' :: (J ++ ']' :: post) := by
    rw [List.dropWhile_cons_of_pos (by decide),
      List.dropWhile_cons_of_neg (by decide)]
  have htw : (' ' :: '[' :: (J ++ ']' :: post)).takeWhile isJsWs = [' '] := by
    rw [List.takeWhile_cons_of_pos (by decide),
      List.takeWhile_cons_of_neg (by decide)]
  rw [hdw, htw]
  have hJall : ∀ c ∈ J, (fun c => !isLineTerm c) c = true := by
    intro c hc; simp [hJ c hc]
  have hline : (J ++ ']' :: post).takeWhile (fun c => !isLineTerm c) =
      J ++ ']' :: post.takeWhile (fun c => !isLineTerm c) := by
    rw [takeWhile_append_all _ _ _ hJall, List.takeWhile_cons_of_pos (by decide)]
  have hdrop : (J ++ ']' :: post).dropWhile (fun c => !isLineTerm c) =
      post.dropWhile (fun c => !isLineTerm c) := by
    rw [dropWhile_append_all _ _ _ hJall, List.dropWhile_cons_of_pos (by decide)]
  simp only []
  rw [hline, hdrop, lastBrk_last J _ hpost]
  simp only [Option.some.injEq, Prod.mk.injEq, true_and]
  exact List.takeWhile_append_dropWhile _ _

/-! ## Infix decomposition lemmas (for re-matching the rebuilt header) -/

/-- A prefix of an append is a prefix of the first block or extends it. -/
theorem prefix_append_split :
    ∀ P u v : Str, P <+: u ++ v →
      P <+: u ∨ (u <+: P ∧ P.drop u.length <+: v ∧ u ++ P.drop u.length = P) := by
  intro P u
  induction u generalizing P with
  | nil =>
    intro v h
    exact Or.inr ⟨List.nil_prefix, by simpa using h, by simp⟩
  | cons c u' ih =>
    intro v h
    cases P with
    | nil => exact Or.inl List.nil_prefix
    | cons p P' =>
      rw [List.cons_append] at h
      obtain ⟨hpc, hP'⟩ := List.cons_prefix_cons.mp h
      rcases ih P' v hP' with h1 | ⟨h1, h2, h3⟩
      · exact Or.inl (List.cons_prefix_cons.mpr ⟨hpc, h1⟩)
      · refine Or.inr ⟨List.cons_prefix_cons.mpr ⟨hpc.symm, h1⟩, ?_, ?_⟩
        · simpa using h2
        · rw [hpc]
          simp only [List.length_cons, List.drop_succ_cons]
          rw [List.cons_append, h3]

/-- A suffix of an append is a suffix of the second block or extends it. -/
theorem suffix_append_split (x u v : Str) (h : x <:+ u ++ v) :
    x <:+ v ∨ v <:+ x := by
  have hrev : x.reverse <+: v.reverse ++ u.reverse := by
    rw [← List.reverse_append]
    exact List.reverse_prefix.mpr h
  rcases prefix_append_split _ _ _ hrev with h1 | ⟨h1, -, -⟩
  · exact Or.inl (List.reverse_prefix.mp h1)
  · exact Or.inr (List.reverse_prefix.mp h1)

/-- An infix of an append lies in one block or straddles the junction. -/
theorem infix_append_split :
    ∀ P u v : Str, P <:+: u ++ v →
      P <:+: u ∨ P <:+: v ∨
      ∃ x y : Str, x ++ y = P ∧ x ≠ [] ∧ y ≠ [] ∧ x <:+ u ∧ y <+: v := by
  intro P u
  induction u generalizing P with
  | nil =>
    intro v h
    exact Or.inr (Or.inl (by simpa using h))
  | cons c u' ih =>
    intro v h
    rw [List.cons_append] at h
    rcases List.infix_cons_iff.mp h with h1 | h1
    · cases P with
      | nil => exact Or.inl List.nil_infix
      | cons p P' =>
        obtain ⟨hpc, hP'⟩ := List.cons_prefix_cons.mp h1
        rcases prefix_append_split P' u' v hP' with h2 | ⟨h2, h3, h4⟩
        · exact Or.inl (List.cons_prefix_cons.mpr ⟨hpc, h2⟩).isInfix
        · cases hy : P'.drop u'.length with
          | nil =>
            apply Or.inl
            have hP : p :: P' = c :: u' := by
              rw [← h4, hy, List.append_nil, hpc]
            rw [hP]
          | cons e y' =>
            refine Or.inr (Or.inr ⟨c :: u', e :: y', ?_, by simp, by simp,
              List.suffix_rfl, ?_⟩)
            · rw [hpc, ← h4, hy]
              rfl
            · rw [← hy]; exact h3
    · rcases ih P v h1 with h2 | h2 | ⟨x, y, hxy, hx, hy, hxu, hyv⟩
      · exact Or.inl (h2.trans (u'.suffix_cons c).isInfix)
      · exact Or.inr (Or.inl h2)
      · exact Or.inr (Or.inr ⟨x, y, hxy, hx, hy,
          hxu.trans (u'.suffix_cons c), hyv⟩)

/-- A string without `'\n'` has no `"\n---"` infix. -/
theorem not_infix_nl3_of_no_nl (m : Str) (h : '\n' ∉ m) :
    ¬ (str "\n---") <:+: m := by
  intro hinf
  obtain ⟨x, y, hxy⟩ := hinf
  apply h
  rw [← hxy]
  refine List.mem_append.mpr (Or.inl ?_)
  refine List.mem_append.mpr (Or.inr ?_)
  rw [show (str "\n---") = '\n' :: str "---" from rfl]
  exact List.mem_cons_self _ _

/-- Cutting `"\n---"` into two nonempty pieces leaves a second piece that
starts with `'-'`. -/
theorem nl3_split_head (x y : Str) (hxy : x ++ y = str "\n---")
    (hx : x ≠ []) (hy : y ≠ []) : y.head? = some '-' := by
  have hlen : x.length + y.length = 4 := by
    have := congrArg List.length hxy
    simpa [str] using this
  match x, hx with
  | [c1], _ =>
    rw [show (str "\n---") = ['\n', '-', '-', '-'] from rfl] at hxy
    simp only [List.cons_append, List.nil_append, List.cons.injEq] at hxy
    rw [hxy.2]
    rfl
  | [c1, c2], _ =>
    rw [show (str "\n---") = ['\n', '-', '-', '-'] from rfl] at hxy
    simp only [List.cons_append, List.nil_append, List.cons.injEq] at hxy
    rw [hxy.2.2]
    rfl
  | [c1, c2, c3], _ =>
    rw [show (str "\n---") = ['\n', '-', '-', '-'] from rfl] at hxy
    simp only [List.cons_append, List.nil_append, List.cons.injEq] at hxy
    rw [hxy.2.2.2]
    rfl
  | c1 :: c2 :: c3 :: c4 :: x5, _ =>
    exfalso
    simp only [List.length_cons] at hlen
    have hylen : y.length = 0 := by omega
    exact hy (List.length_eq_zero.mp hylen)

/-- No new `"\n---"` appears when a block between two clean pieces is
replaced by text that starts with `'t'` and contains no `'\n'` (so the
pattern can neither sit inside the new block nor straddle its edges). -/
theorem not_infix_nl3_sandwich (pre m2 post : Str)
    (hpre : ¬ (str "\n---") <:+: pre) (hpost : ¬ (str "\n---") <:+: post)
    (hnl : '\n' ∉ ('t' :: m2)) :
    ¬ (str "\n---") <:+: (pre ++ ('t' :: m2) ++ post) := by
  intro hinf
  rcases infix_append_split _ _ _ hinf with h1 | h1 | ⟨x, y, hxy, hx, hy, hxu, hyv⟩
  · rcases infix_append_split _ _ _ h1 with h2 | h2 | ⟨x, y, hxy, hx, hy, hxu, hyv⟩
    · exact hpre h2
    · exact not_infix_nl3_of_no_nl _ hnl h2
    · have hyhead := nl3_split_head x y hxy hx hy
      cases y with
      | nil => exact hy rfl
      | cons e y' =>
        obtain ⟨hem, -⟩ := List.cons_prefix_cons.mp hyv
        have he : e = '-' := by simpa using hyhead
        rw [he] at hem
        exact absurd hem (by decide)
  · exact hpost h1
  · have hyhead := nl3_split_head x y hxy hx hy
    rcases suffix_append_split x pre ('t' :: m2) hxu with h2 | h2
    · apply hnl
      have hxh : '\n' ∈ x := by
        cases x with
        | nil => exact absurd rfl hx
        | cons f x' =>
          have hf : f = '\n' := by
            have := congrArg (fun l => l.head?) hxy
            simpa [str] using this
          rw [hf]
          exact List.mem_cons_self _ _
      exact h2.mem hxh
    · have htx : 't' ∈ x := h2.mem (List.mem_cons_self _ _)
      have htP : 't' ∈ (str "\n---") := by
        rw [← hxy]
        exact List.mem_append.mpr (Or.inl htx)
      exact absurd htP (by decide)

/-- No new `"\n---"` appears when a line `'\n' :: m` is appended to a clean
block, provided `m` starts with `'t'` and contains no `'\n'`. -/
theorem not_infix_nl3_append_line (a m2 : Str)
    (ha : ¬ (str "\n---") <:+: a) (hnl : '\n' ∉ ('t' :: m2)) :
    ¬ (str "\n---") <:+: (a ++ '\n' :: 't' :: m2) := by
  intro hinf
  rcases infix_append_split _ _ _ hinf with h1 | h1 | ⟨x, y, hxy, hx, hy, hxu, hyv⟩
  · exact ha h1
  · rcases List.infix_cons_iff.mp h1 with h2 | h2
    · rw [show (str "\n---") = '\n' :: '-' :: '-' :: '-' :: [] from rfl] at h2
      obtain ⟨-, h3⟩ := List.cons_prefix_cons.mp h2
      obtain ⟨h4, -⟩ := List.cons_prefix_cons.mp h3
      exact absurd h4 (by decide)
    · exact not_infix_nl3_of_no_nl _ hnl h2
  · have hyhead := nl3_split_head x y hxy hx hy
    cases y with
    | nil => exact hy rfl
    | cons e y' =>
      obtain ⟨hem, -⟩ := List.cons_prefix_cons.mp hyv
      have he : e = '-' := by simpa using hyhead
      rw [he] at hem
      exact absurd hem (by decide)

/-- Pieces produced by `splitOnComma` are comma-free. -/
theorem splitOnComma_mem_no_comma :
    ∀ (l t : Str), t ∈ splitOnComma l → ',' ∉ t := by
  intro l
  induction l with
  | nil =>
    intro t ht
    rw [splitOnComma] at ht
    simp only [List.mem_singleton] at ht
    subst ht
    simp
  | cons c cs ih =>
    intro t ht
    rw [splitOnComma] at ht
    split at ht
    · rcases List.mem_cons.mp ht with hh | hh
      · subst hh; simp
      · exact ih t hh
    · rename_i hc
      split at ht
      · rename_i heq
        exact absurd heq (splitOnComma_ne_nil cs)
      · rename_i a as heq
        rcases List.mem_cons.mp ht with hh | hh
        · subst hh
          intro hm
          rcases List.mem_cons.mp hm with hh | hh
          · exact hc hh.symm
          · exact ih a (heq ▸ List.mem_cons_self a as) hh
        · exact ih t (heq ▸ List.mem_cons_of_mem a hh)

/-- Tags parsed from a line-terminator-free, dollar-free field text are
simple. -/
theorem parseTags_simple (inner : Str)
    (hlt : ∀ c ∈ inner, isLineTerm c = false) (hd : '$' ∉ inner) :
    ∀ t ∈ parseTags inner, SimpleTag t := by
  intro t ht c hc
  rw [parseTags] at ht
  obtain ⟨u, hu, hmap⟩ := List.mem_map.mp ht
  have hpred := List.mem_filter.mp (by rw [← hmap] at hc; exact hc)
  have hcu : c ∈ u := mem_of_mem_jsTrim u c (mem_of_mem_stripQuotes _ c
    (by rw [← hmap] at hc; exact hc))
  have hcinner : c ∈ inner := mem_of_mem_splitOnComma inner u c hu hcu
  have h1 : c ≠ ',' := fun hcc => splitOnComma_mem_no_comma inner u hu (hcc ▸ hcu)
  have h2 : c ≠ '$' := fun hcc => hd (hcc ▸ hcinner)
  have h3 : isLineTerm c = false := hlt c hcinner
  have h4 := hpred.2
  simp only [Bool.and_eq_true, decide_eq_true_eq] at h4
  simp [simpleChar, h1, h2, h3, h4.1, h4.2]

/-- `tagsSearch` fails exactly when no suffix matches. -/
theorem tagsSearch_none :
    ∀ l : Str, tagsSearch l = none → ∀ t : Str, t <:+ l → tagsMatchAt t = none := by
  intro l
  induction l with
  | nil =>
    intro _ t ht
    rw [List.suffix_nil.mp ht]
    rw [tagsMatchAt_unfold, if_neg (by decide)]
  | cons c cs ih =>
    intro h t ht
    rw [tagsSearch] at h
    cases hma : tagsMatchAt (c :: cs) with
    | some r => rw [hma] at h; exact absurd h (by simp)
    | none =>
      rw [hma] at h
      have hcs : tagsSearch cs = none := by
        cases hts : tagsSearch cs with
        | none => rfl
        | some r => rw [hts] at h; exact absurd h (by simp)
      rcases List.suffix_cons_iff.mp ht with hh | hh
      · rw [hh]; exact hma
      · exact ih hcs t hh

/-- No match can start at a line terminator. -/
theorem tagsMatchAt_nl (X : Str) : tagsMatchAt ('\n' :: X) = none := by
  rw [tagsMatchAt_unfold, if_neg]
  intro hw
  have hpre := (take5_tags_iff _).mp hw
  rw [show (str "tags:") = 't' :: 'a' :: 'g' :: 's' :: ':' :: [] from rfl] at hpre
  obtain ⟨hf, -⟩ := List.cons_prefix_cons.mp hpre
  exact absurd hf (by decide)

/-- A start position in the last four characters before an appended
`'\n'`-led block cannot match. -/
theorem tagsMatchAt_short_nl (b X : Str) (hb : b ≠ []) (h4 : b.length ≤ 4) :
    tagsMatchAt (b ++ '\n' :: X) = none := by
  rw [tagsMatchAt_unfold, if_neg]
  intro hw
  have hpre := (take5_tags_iff _).mp hw
  rw [show (str "tags:") = 't' :: 'a' :: 'g' :: 's' :: ':' :: [] from rfl] at hpre
  match b, hb, h4 with
  | [c1], _, _ =>
    simp only [List.cons_append, List.nil_append] at hpre
    rcases List.cons_prefix_cons.mp hpre with ⟨-, h2⟩
    rcases List.cons_prefix_cons.mp h2 with ⟨hf, -⟩
    exact absurd hf (by decide)
  | [c1, c2], _, _ =>
    simp only [List.cons_append, List.nil_append] at hpre
    rcases List.cons_prefix_cons.mp hpre with ⟨-, h2⟩
    rcases List.cons_prefix_cons.mp h2 with ⟨-, h3⟩
    rcases List.cons_prefix_cons.mp h3 with ⟨hf, -⟩
    exact absurd hf (by decide)
  | [c1, c2, c3], _, _ =>
    simp only [List.cons_append, List.nil_append] at hpre
    rcases List.cons_prefix_cons.mp hpre with ⟨-, h2⟩
    rcases List.cons_prefix_cons.mp h2 with ⟨-, h3⟩
    rcases List.cons_prefix_cons.mp h3 with ⟨-, h4'⟩
    rcases List.cons_prefix_cons.mp h4' with ⟨hf, -⟩
    exact absurd hf (by decide)
  | [c1, c2, c3, c4], _, _ =>
    simp only [List.cons_append, List.nil_append] at hpre
    rcases List.cons_prefix_cons.mp hpre with ⟨-, h2⟩
    rcases List.cons_prefix_cons.mp h2 with ⟨-, h3⟩
    rcases List.cons_prefix_cons.mp h3 with ⟨-, h4'⟩
    rcases List.cons_prefix_cons.mp h4' with ⟨-, h5⟩
    rcases List.cons_prefix_cons.mp h5 with ⟨hf, -⟩
    exact absurd hf (by decide)

/-- Appending a fresh `"\ntags: ..."` line to a string cannot create a match
at a position where matching previously failed: the new line begins with a
line terminator, so the old line structure is unchanged. -/
theorem tagsMatchAt_append_nlQ (b Q2 : Str)
    (hb : tagsMatchAt b = none) :
    tagsMatchAt (b ++ '\n' :: 't' :: Q2) = none := by
  by_cases hbe : b = []
  · subst hbe
    rw [List.nil_append]
    exact tagsMatchAt_nl _
  by_cases hlen : b.length ≤ 4
  · exact tagsMatchAt_short_nl b _ hbe hlen
  match b, hbe, hlen with
  | [c1], _, hx => exact absurd (by simp) hx
  | [c1, c2], _, hx => exact absurd (by simp) hx
  | [c1, c2, c3], _, hx => exact absurd (by simp) hx
  | [c1, c2, c3, c4], _, hx => exact absurd (by simp) hx
  | d1 :: d2 :: d3 :: d4 :: d5 :: b', _, _ =>
    by_cases hw : ([d1, d2, d3, d4, d5] : Str) = str "tags:"
    case neg =>
      rw [tagsMatchAt_unfold, if_neg]
      intro hw5
      apply hw
      have hpre := (take5_tags_iff _).mp hw5
      simp only [List.cons_append, List.append_assoc] at hpre
      rw [show (str "tags:") = 't' :: 'a' :: 'g' :: 's' :: ':' :: [] from rfl] at hpre ⊢
      rcases List.cons_prefix_cons.mp hpre with ⟨e1, h2⟩
      rcases List.cons_prefix_cons.mp h2 with ⟨e2, h3⟩
      rcases List.cons_prefix_cons.mp h3 with ⟨e3, h4'⟩
      rcases List.cons_prefix_cons.mp h4' with ⟨e4, h5'⟩
      rcases List.cons_prefix_cons.mp h5' with ⟨e5, -⟩
      rw [← e1, ← e2, ← e3, ← e4, ← e5]
    case pos =>
      have hd : d1 = 't' ∧ d2 = 'a' ∧ d3 = 'g' ∧ d4 = 's' ∧ d5 = ':' := by
        rw [show (str "tags:") = 't' :: 'a' :: 'g' :: 's' :: ':' :: [] from rfl] at hw
        simp only [List.cons.injEq, and_true] at hw
        exact hw
      obtain ⟨e1, e2, e3, e4, e5⟩ := hd
      subst e1; subst e2; subst e3; subst e4; subst e5
      have hsplitb : ('t':: 'a':: 'g':: 's':: ':'::b' : Str) = str "tags:" ++ b' := by
        simp [str]
      have hsplit : (('t':: 'a':: 'g':: 's':: ':'::b') ++ '\n' :: 't' :: Q2 : Str) =
          str "tags:" ++ (b' ++ '\n' :: 't' :: Q2) := by
        simp [str]
      rw [hsplitb, tagsMatchAt_unfold, take5_tags, if_pos rfl, drop5_tags] at hb
      rw [hsplit, tagsMatchAt_unfold, take5_tags, if_pos rfl, drop5_tags]
      cases hdw : b'.dropWhile isJsWs with
      | nil =>
        have hall := all_of_dropWhile_nil isJsWs b' hdw
        have hnew : (b' ++ '\n' :: 't' :: Q2).dropWhile isJsWs =
            't' :: Q2 := by
          rw [dropWhile_append_all isJsWs b' _ hall,
            List.dropWhile_cons_of_pos (by decide),
            List.dropWhile_cons_of_neg (by decide)]
        rw [hnew]
        rfl
      | cons c b₃ =>
        have hne : b'.dropWhile isJsWs ≠ [] := by rw [hdw]; simp
        have hdwap : (b' ++ '\n' :: 't' :: Q2).dropWhile isJsWs =
            c :: (b₃ ++ '\n' :: 't' :: Q2) := by
          rw [dropWhile_append_of_ne_nil isJsWs b' _ hne, hdw]
          rfl
        rw [hdw] at hb
        rw [hdwap]
        by_cases hc : c = '['
        case neg =>
          split
          · rename_i r3 heq
            exact absurd (List.cons.injEq .. ▸ heq).1 hc
          · rfl
        case pos =>
          subst hc
          simp only [] at hb ⊢
          cases hlt : b₃.dropWhile (fun c => !isLineTerm c) with
          | cons e b₄ =>
            have hlne : b₃.dropWhile (fun c => !isLineTerm c) ≠ [] := by
              rw [hlt]; simp
            have hline : (b₃ ++ '\n' :: 't' :: Q2).takeWhile
                (fun c => !isLineTerm c) =
                  b₃.takeWhile (fun c => !isLineTerm c) :=
              takeWhile_append_of_ne_nil _ b₃ _ hlne
            rw [hline]
            cases hlb : lastBrk (b₃.takeWhile (fun c => !isLineTerm c)) with
            | some p =>
              rw [hlb] at hb
              exact absurd hb (by simp)
            | none => rfl
          | nil =>
            have hall₃ := all_of_dropWhile_nil _ b₃ hlt
            have htake : b₃.takeWhile (fun c => !isLineTerm c) = b₃ := by
              conv_rhs => rw [← List.takeWhile_append_dropWhile
                (fun c => !isLineTerm c) b₃]
              rw [hlt, List.append_nil]
            have hline : (b₃ ++ '\n' :: 't' :: Q2).takeWhile
                (fun c => !isLineTerm c) = b₃ := by
              rw [takeWhile_append_all _ b₃ _ hall₃,
                List.takeWhile_cons_of_neg (by decide), List.append_nil]
            rw [hline]
            rw [htake] at hb
            cases hlb : lastBrk b₃ with
            | some p =>
              rw [hlb] at hb
              exact absurd hb (by simp)
            | none => rfl

/-- Tags that are simple contain no dollar sign. -/
theorem no_dollar_of_simple (tags : List Str) (h : ∀ t ∈ tags, SimpleTag t) :
    ∀ t ∈ tags, '$' ∉ t :=
  fun t ht => (simpleTag_facts t (h t ht)).2.2.2.1

/-- `parseTags` always produces at least one tag. -/
theorem parseTags_ne_nil (inner : Str) : parseTags inner ≠ [] := by
  rw [parseTags]
  intro h
  exact splitOnComma_ne_nil inner (List.map_eq_nil_iff.mp h)

/-- Idempotence of `applyTags` in the header-less case. -/
theorem applyTags_idem_no_header (content : Str) (tags : List Str)
    (hne : tags ≠ []) (hnd : tags.Nodup)
    (hsimple : ∀ t ∈ tags, SimpleTag t)
    (hfm : fmMatch content = none) :
    applyTags (applyTags content tags) tags = applyTags content tags := by
  have hJlt := serializeTags_no_lineterm tags hsimple
  have h1 := applyTags_no_header content tags hfm
  have hshape : str "---\ntags: [" ++ serializeTags tags ++ str "]\n---\n\n"
      ++ content =
      str "---\n" ++ (str "tags: [" ++ (serializeTags tags ++ ']' :: []))
        ++ str "\n---" ++ (str "\n\n" ++ content) := by
    simp [str]
  have hnlB : '\n' ∉ (str "tags: [" ++ (serializeTags tags ++ ']' :: [])) := by
    intro hc
    rcases List.mem_append.mp hc with hh | hh
    · exact absurd hh (by decide)
    · rcases List.mem_append.mp hh with hh | hh
      · have hl := hJlt '\n' hh
        simp [isLineTerm] at hl
      · simp at hh
  have hfm2 : fmMatch (str "---\ntags: [" ++ serializeTags tags ++
      str "]\n---\n\n" ++ content) =
      some (str "tags: [" ++ (serializeTags tags ++ ']' :: []),
        str "\n\n" ++ content) := by
    rw [hshape]
    exact fmMatch_build _ _ (not_infix_nl3_of_no_nl _ hnlB)
  have hmaQ : tagsMatchAt (str "tags: [" ++ (serializeTags tags ++ ']' :: []))
      = some ([' '], serializeTags tags, []) := by
    have := tagsMatchAt_field (serializeTags tags) [] hJlt (by simp)
    simpa using this
  have hts2 : tagsSearch (str "tags: [" ++ (serializeTags tags ++ ']' :: []))
      = some ([], [' '], serializeTags tags, []) := by
    have := tagsSearch_append [] _ [' '] (serializeTags tags) [] ?hf hmaQ
    · simpa using this
    case hf =>
      intro t ht htne
      exact absurd (List.suffix_nil.mp ht) htne
  have hd1 : '$' ∉ (str "tags: [" ++ (serializeTags tags ++ ']' :: [])) := by
    intro hc
    rcases List.mem_append.mp hc with hh | hh
    · exact absurd hh (by decide)
    · rcases List.mem_append.mp hh with hh | hh
      · exact serializeTags_no_dollar_simple tags hsimple hh
      · simp at hh
  have h2 := applyTags_field
    (str "---\ntags: [" ++ serializeTags tags ++ str "]\n---\n\n" ++ content)
    tags _ _ _ _ _ _ hfm2 hts2 hd1 (no_dollar_of_simple tags hsimple)
  rw [h1, h2, parseTags_serializeTags tags hne hsimple,
    setDedup_append_absorb tags tags hnd (fun t ht => ht)]
  simp [str]

/-- Idempotence of `applyTags` when the header exists but has no tags
field. -/
theorem applyTags_idem_append (content : Str) (tags : List Str)
    (body rest : Str)
    (hne : tags ≠ []) (hnd : tags.Nodup)
    (hsimple : ∀ t ∈ tags, SimpleTag t)
    (hdol : '$' ∉ content)
    (hfm : fmMatch content = some (body, rest))
    (hts : tagsSearch body = none) :
    applyTags (applyTags content tags) tags = applyTags content tags := by
  have hJlt := serializeTags_no_lineterm tags hsimple
  obtain ⟨hcontent, hni⟩ := fmMatch_eq_some _ _ _ hfm
  have hdbody : '$' ∉ body := fun hc => hdol (by
    rw [hcontent]
    exact List.mem_append.mpr (Or.inl (List.mem_append.mpr (Or.inl (
      List.mem_append.mpr (Or.inr hc))))))
  have h1 := applyTags_append_field content tags body rest hfm hts hdbody
    (no_dollar_of_simple tags hsimple)
  -- shape of the once-merged document
  have hshape : str "---\n" ++ body ++
      (str "\ntags: [" ++ serializeTags tags ++ str "]") ++
      (str "\n---" ++ rest) =
      str "---\n" ++ (body ++ '\n' :: 't' ::
        (str "ags: [" ++ (serializeTags tags ++ ']' :: [])))
        ++ str "\n---" ++ rest := by
    simp [str]
  have hnlB : '\n' ∉ ('t' :: (str "ags: [" ++ (serializeTags tags ++ ']' :: []))) := by
    intro hc
    rcases List.mem_cons.mp hc with hh | hh
    · exact absurd hh (by decide)
    · rcases List.mem_append.mp hh with hh | hh
      · exact absurd hh (by decide)
      · rcases List.mem_append.mp hh with hh | hh
        · have hl := hJlt '\n' hh
          simp [isLineTerm] at hl
        · simp at hh
  have hfm2 : fmMatch (str "---\n" ++ body ++
      (str "\ntags: [" ++ serializeTags tags ++ str "]") ++
      (str "\n---" ++ rest)) =
      some (body ++ '\n' :: 't' ::
        (str "ags: [" ++ (serializeTags tags ++ ']' :: [])), rest) := by
    rw [hshape]
    exact fmMatch_build _ _ (not_infix_nl3_append_line body _ hni hnlB)
  have hmaQ : tagsMatchAt (str "tags: [" ++ (serializeTags tags ++ ']' :: []))
      = some ([' '], serializeTags tags, []) := by
    have := tagsMatchAt_field (serializeTags tags) [] hJlt (by simp)
    simpa using this
  have hts2 : tagsSearch (body ++ '\n' :: 't' ::
      (str "ags: [" ++ (serializeTags tags ++ ']' :: []))) =
      some (body ++ ['\n'], [' '], serializeTags tags, []) := by
    have heq : body ++ '\n' :: 't' ::
        (str "ags: [" ++ (serializeTags tags ++ ']' :: [])) =
        (body ++ ['\n']) ++
          (str "tags: [" ++ (serializeTags tags ++ ']' :: [])) := by
      simp [str]
    rw [heq]
    apply tagsSearch_append _ _ _ _ _ ?hf hmaQ
    case hf =>
      intro t ht htne
      rcases suffix_append_split t body ['\n'] ht with h2 | h2
      · have ht1 : t = ['\n'] := by
          cases t with
          | nil => exact absurd rfl htne
          | cons e t' =>
            rcases List.suffix_cons_iff.mp h2 with hh | hh
            · exact hh
            · exact absurd (List.suffix_nil.mp hh) (by simp)
        rw [ht1]
        have heq2 : (['\n'] : Str) ++
            (str "tags: [" ++ (serializeTags tags ++ ']' :: [])) =
            '\n' :: (str "tags: [" ++ (serializeTags tags ++ ']' :: [])) := rfl
        rw [heq2]
        exact tagsMatchAt_nl _
      · obtain ⟨t0, ht0⟩ := h2
        have hfail0 : tagsMatchAt t0 = none := by
          apply tagsSearch_none body hts t0
          have hsuf : t0 ++ ['\n'] <:+ body ++ ['\n'] := ht0 ▸ ht
          obtain ⟨w, hw⟩ := hsuf
          refine ⟨w, ?_⟩
          have hw' : (w ++ t0) ++ ['\n'] = body ++ ['\n'] := by
            rw [← hw]; simp
          exact List.append_cancel_right hw'
        have heq3 : t ++ (str "tags: [" ++ (serializeTags tags ++ ']' :: [])) =
            t0 ++ '\n' :: 't' ::
              (str "ags: [" ++ (serializeTags tags ++ ']' :: [])) := by
          rw [← ht0]
          simp [str]
        rw [heq3]
        exact tagsMatchAt_append_nlQ t0 _ hfail0
  have hd1 : '$' ∉ (body ++ '\n' :: 't' ::
      (str "ags: [" ++ (serializeTags tags ++ ']' :: []))) := by
    intro hc
    rcases List.mem_append.mp hc with hh | hh
    · exact hdbody hh
    · rcases List.mem_cons.mp hh with hh | hh
      · exact absurd hh (by decide)
      · rcases List.mem_cons.mp hh with hh | hh
        · exact absurd hh (by decide)
        · rcases List.mem_append.mp hh with hh | hh
          · exact absurd hh (by decide)
          · rcases List.mem_append.mp hh with hh | hh
            · exact serializeTags_no_dollar_simple tags hsimple hh
            · simp at hh
  have h2 := applyTags_field
    (str "---\n" ++ body ++
      (str "\ntags: [" ++ serializeTags tags ++ str "]") ++
      (str "\n---" ++ rest))
    tags _ _ _ _ _ _ hfm2 hts2 hd1 (no_dollar_of_simple tags hsimple)
  rw [h1, h2, parseTags_serializeTags tags hne hsimple,
    setDedup_append_absorb tags tags hnd (fun t ht => ht)]
  simp [str]

/-- Idempotence of `applyTags` when the header has a tags field whose match
does not span lines. -/
theorem applyTags_idem_field (content : Str) (tags : List Str)
    (body rest pre ws inner post : Str)
    (hne : tags ≠ []) (hnd : tags.Nodup)
    (hsimple : ∀ t ∈ tags, SimpleTag t)
    (hdol : '$' ∉ content)
    (hfm : fmMatch content = some (body, rest))
    (hts : tagsSearch body = some (pre, ws, inner, post))
    (hwsl : ∀ c ∈ ws, isLineTerm c = false) :
    applyTags (applyTags content tags) tags = applyTags content tags := by
  obtain ⟨hcontent, hni⟩ := fmMatch_eq_some _ _ _ hfm
  obtain ⟨hbody, hmac, hfail⟩ := tagsSearch_eq_some _ _ _ _ _ hts
  obtain ⟨-, hwsall, hinnerlt, hpostbrk⟩ := tagsMatchAt_eq_some _ _ _ _ hmac
  have hdbody : '$' ∉ body := fun hc => hdol (by
    rw [hcontent]
    exact List.mem_append.mpr (Or.inl (List.mem_append.mpr (Or.inl (
      List.mem_append.mpr (Or.inr hc))))))
  have hdpre : '$' ∉ pre := fun hc =>
    hdbody (hbody ▸ List.mem_append.mpr (Or.inl hc))
  have hdinner : '$' ∉ inner := fun hc =>
    hdbody (hbody ▸ List.mem_append.mpr (Or.inr (List.mem_append.mpr (Or.inr (
      List.mem_cons_of_mem _ (List.mem_append.mpr (Or.inl hc)))))))
  have hdpost : '$' ∉ post := fun hc =>
    hdbody (hbody ▸ List.mem_append.mpr (Or.inr (List.mem_append.mpr (Or.inr (
      List.mem_cons_of_mem _ (List.mem_append.mpr (Or.inr (
        List.mem_cons_of_mem _ hc))))))))
  have hcursimple := parseTags_simple inner hinnerlt hdinner
  have hmergsimple : ∀ t ∈ setDedup (parseTags inner ++ tags), SimpleTag t := by
    intro t ht
    rcases List.mem_append.mp ((mem_setDedup _ _).mp ht) with hh | hh
    · exact hcursimple t hh
    · exact hsimple t hh
  have hmergne : setDedup (parseTags inner ++ tags) ≠ [] := by
    obtain ⟨c0, hc0⟩ := List.exists_mem_of_ne_nil _ (parseTags_ne_nil inner)
    exact List.ne_nil_of_mem ((mem_setDedup _ _).mpr
      (List.mem_append.mpr (Or.inl hc0)))
  have h1 := applyTags_field content tags body rest pre ws inner post hfm hts
    hdbody (no_dollar_of_simple tags hsimple)
  have hJlt := serializeTags_no_lineterm _ hmergsimple
  -- the re-parsed body
  have hshape : str "---\n" ++ pre ++
      (str "tags: [" ++ serializeTags (setDedup (parseTags inner ++ tags))
        ++ str "]") ++ post ++ (str "\n---" ++ rest) =
      str "---\n" ++ (pre ++ (str "tags: [" ++
        (serializeTags (setDedup (parseTags inner ++ tags)) ++ ']' :: post)))
        ++ str "\n---" ++ rest := by
    simp [str]
  have hnlNF : '\n' ∉ ('t' :: (str "ags: [" ++
      (serializeTags (setDedup (parseTags inner ++ tags)) ++ ']' :: []))) := by
    intro hc
    rcases List.mem_cons.mp hc with hh | hh
    · exact absurd hh (by decide)
    · rcases List.mem_append.mp hh with hh | hh
      · exact absurd hh (by decide)
      · rcases List.mem_append.mp hh with hh | hh
        · have hl := hJlt '\n' hh
          simp [isLineTerm] at hl
        · simp at hh
  have hnipre : ¬ (str "\n---") <:+: pre := by
    intro hinf
    apply hni
    rw [hbody]
    exact hinf.trans (List.prefix_append _ _).isInfix
  have hnipost : ¬ (str "\n---") <:+: post := by
    intro hinf
    apply hni
    rw [hbody]
    refine hinf.trans (List.IsSuffix.isInfix ⟨pre ++ (str "tags:" ++ ws ++
      '[' :: inner ++ [']']), ?_⟩)
    simp
  have hnibody2 : ¬ (str "\n---") <:+: (pre ++ (str "tags: [" ++
      (serializeTags (setDedup (parseTags inner ++ tags)) ++ ']' :: post))) := by
    have hsand := not_infix_nl3_sandwich pre (str "ags: [" ++
      (serializeTags (setDedup (parseTags inner ++ tags)) ++ ']' :: []))
      post hnipre hnipost hnlNF
    intro hinf
    apply hsand
    have heq : pre ++ ('t' :: (str "ags: [" ++
        (serializeTags (setDedup (parseTags inner ++ tags)) ++ ']' :: [])))
        ++ post = pre ++ (str "tags: [" ++
        (serializeTags (setDedup (parseTags inner ++ tags)) ++ ']' :: post)) := by
      simp [str]
    rw [heq]
    exact hinf
  have hfm2 : fmMatch (str "---\n" ++ pre ++
      (str "tags: [" ++ serializeTags (setDedup (parseTags inner ++ tags))
        ++ str "]") ++ post ++ (str "\n---" ++ rest)) =
      some (pre ++ (str "tags: [" ++
        (serializeTags (setDedup (parseTags inner ++ tags)) ++ ']' :: post)),
        rest) := by
    rw [hshape]
    exact fmMatch_build _ _ hnibody2
  have hmaQ : tagsMatchAt (str "tags: [" ++
      (serializeTags (setDedup (parseTags inner ++ tags)) ++ ']' :: post))
      = some ([' '], serializeTags (setDedup (parseTags inner ++ tags)), post) :=
    tagsMatchAt_field _ post hJlt hpostbrk
  have hts2 : tagsSearch (pre ++ (str "tags: [" ++
      (serializeTags (setDedup (parseTags inner ++ tags)) ++ ']' :: post))) =
      some (pre, [' '], serializeTags (setDedup (parseTags inner ++ tags)),
        post) := by
    apply tagsSearch_append _ _ _ _ _ ?hf hmaQ
    case hf =>
      intro t ht htne
      have hMlt : ∀ c ∈ (str "tags:" ++ (ws ++ ('[' :: (inner ++ [']'])))),
          isLineTerm c = false := by
        intro c hc
        rcases List.mem_append.mp hc with hh | hh
        · have hca : c = 't' ∨ c = 'a' ∨ c = 'g' ∨ c = 's' ∨ c = ':' := by
            simpa [str] using hh
          rcases hca with h | h | h | h | h
          all_goals (subst h; decide)
        · rcases List.mem_append.mp hh with hh | hh
          · exact hwsl c hh
          · rcases List.mem_cons.mp hh with hh | hh
            · subst hh; decide
            · rcases List.mem_append.mp hh with hh | hh
              · exact hinnerlt c hh
              · have hcb : c = ']' := by simpa using hh
                subst hcb; decide
      have hMbrk : ']' ∈ (ws ++ ('[' :: (inner ++ [']'])) : Str) := by
        refine List.mem_append.mpr (Or.inr ?_)
        refine List.mem_cons_of_mem _ ?_
        exact List.mem_append.mpr (Or.inr (List.mem_singleton.mpr rfl))
      have hnone : tagsMatchAt (t ++ (str "tags:" ++
          (ws ++ ('[' :: (inner ++ [']'])))) ++ post) = none := by
        have heq : t ++ (str "tags:" ++ (ws ++ ('[' :: (inner ++ [']']))))
            ++ post = t ++ (str "tags:" ++ ws ++ '[' ::
              (inner ++ ']' :: post)) := by
          simp
        rw [heq]
        exact hfail t ht htne
      have htr := tagsMatchAt_transfer t (ws ++ ('[' :: (inner ++ [']'])))
        (str " [" ++ (serializeTags (setDedup (parseTags inner ++ tags))
          ++ [']'])) post htne hMlt hMbrk hnone
      have heq2 : t ++ (str "tags:" ++ (str " [" ++
          (serializeTags (setDedup (parseTags inner ++ tags)) ++ [']'])))
          ++ post = t ++ (str "tags: [" ++
          (serializeTags (setDedup (parseTags inner ++ tags)) ++ ']' :: post)) := by
        simp [str]
      rw [heq2] at htr
      exact htr
  have hd1 : '$' ∉ (pre ++ (str "tags: [" ++
      (serializeTags (setDedup (parseTags inner ++ tags)) ++ ']' :: post))) := by
    intro hc
    rcases List.mem_append.mp hc with hh | hh
    · exact hdpre hh
    · rcases List.mem_append.mp hh with hh | hh
      · exact absurd hh (by decide)
      · rcases List.mem_append.mp hh with hh | hh
        · exact serializeTags_no_dollar_simple _ hmergsimple hh
        · rcases List.mem_cons.mp hh with hh | hh
          · exact absurd hh (by decide)
          · exact hdpost hh
  have h2 := applyTags_field
    (str "---\n" ++ pre ++
      (str "tags: [" ++ serializeTags (setDedup (parseTags inner ++ tags))
        ++ str "]") ++ post ++ (str "\n---" ++ rest))
    tags _ _ _ _ _ _ hfm2 hts2 hd1 (no_dollar_of_simple tags hsimple)
  have hround := parseTags_serializeTags (setDedup (parseTags inner ++ tags))
    hmergne hmergsimple
  have habsorb : setDedup (setDedup (parseTags inner ++ tags) ++ tags) =
      setDedup (parseTags inner ++ tags) :=
    setDedup_append_absorb _ tags (setDedup_nodup _)
      (fun t ht => (mem_setDedup _ _).mpr (List.mem_append.mpr (Or.inr ht)))
  rw [h1, h2, hround, habsorb]

/-- C2 (amended): applying the same tags twice yields the same document as
applying them once, for every starting document (with or without header)
and every nonempty, duplicate-free list of simple tags (no quote,
apostrophe, comma, dollar or line-terminator characters), provided the
document contains no dollar sign and the whitespace of the matched tags
field (if any) stays on one line. -/
theorem c2_idempotent_merge (content : Str) (tags : List Str)
    (hne : tags ≠ []) (hnd : tags.Nodup)
    (hsimple : ∀ t ∈ tags, SimpleTag t)
    (hdol : '$' ∉ content)
    (hwsl : ∀ body rest pre ws inner post : Str,
      fmMatch content = some (body, rest) →
      tagsSearch body = some (pre, ws, inner, post) →
      ∀ c ∈ ws, isLineTerm c = false) :
    applyTags (applyTags content tags) tags = applyTags content tags := by
  cases hfm : fmMatch content with
  | none => exact applyTags_idem_no_header content tags hne hnd hsimple hfm
  | some p =>
    obtain ⟨body, rest⟩ := p
    cases hts : tagsSearch body with
    | none =>
      exact applyTags_idem_append content tags body rest hne hnd hsimple
        hdol hfm hts
    | some q =>
      obtain ⟨pre, ws, inner, post⟩ := q
      exact applyTags_idem_field content tags body rest pre ws inner post
        hne hnd hsimple hdol hfm hts (hwsl body rest pre ws inner post hfm hts)

/-- Simplicity of a tag is decidable. -/
instance decidableSimpleTag (t : Str) : Decidable (SimpleTag t) :=
  inferInstanceAs (Decidable (∀ c ∈ t, simpleChar c = true))

/-- Witness for C2 at a concrete input: merging `["b"]` into a note that
already has `tags: ["a"]` is idempotent. -/
theorem c2_idempotent_merge_witness :
    applyTags (applyTags (str "---\ntags: [\"a\"]\n---\nhello") [str "b"])
        [str "b"] =
      applyTags (str "---\ntags: [\"a\"]\n---\nhello") [str "b"] := by
  apply c2_idempotent_merge
  · decide
  · decide
  · decide
  · decide
  · intro body rest pre ws inner post h1 h2
    rw [show fmMatch (str "---\ntags: [\"a\"]\n---\nhello") =
      some (str "tags: [\"a\"]", str "\nhello") from by decide] at h1
    simp only [Option.some.injEq, Prod.mk.injEq] at h1
    obtain ⟨hb, -⟩ := h1
    subst hb
    rw [show tagsSearch (str "tags: [\"a\"]") =
      some ([], [' '], str "\"a\"", []) from by decide] at h2
    simp only [Option.some.injEq, Prod.mk.injEq] at h2
    obtain ⟨-, hws, -, -⟩ := h2
    subst hws
    decide

/-- Counterexample to C2 as stated: with the empty tag list and a
header-less document, the first application writes `tags: []`, which the
second application re-parses as one empty-string tag and rewrites to
`tags: [""]` — the tag field changes. -/
theorem c2_idempotent_merge_cex :
    applyTags (str "hello") ([] : List Str) =
      str "---\ntags: []\n---\n\nhello" ∧
    applyTags (applyTags (str "hello") ([] : List Str)) ([] : List Str) =
      str "---\ntags: [\"\"]\n---\n\nhello" ∧
    applyTags (applyTags (str "hello") ([] : List Str)) ([] : List Str) ≠
      applyTags (str "hello") ([] : List Str) :=
  ⟨by decide, by decide, by decide⟩

/-! ## The Tag Suggestion Client (`suggestTags`, lines 125–155) -/

/-- JSON values as produced by `JSON.parse`.  Numbers are kept as their raw
source token: the program never computes with them (they can only reach the
unchecked `as string[]` cast), and JavaScript's binary floating point is
outside this model.  Strings are sequences of scalar values; `\uXXXX`
escapes denoting lone surrogates are mapped to the replacement of
`Char.ofNat` (no claim inspects them). -/
inductive Json where
  | null : Json
  | bool (b : Bool) : Json
  | num (raw : Str) : Json
  | str (s : Str) : Json
  | arr (elems : List Json) : Json
  | obj (members : List (Str × Json)) : Json

/-- JSON insignificant whitespace. -/
def jsonWs (c : Char) : Bool :=
  c = ' ' || c = '\t' || c = '\n' || c = '\r'

/-- Skip insignificant whitespace. -/
def skipWs (s : Str) : Str := s.dropWhile jsonWs

/-- Hexadecimal digit value. -/
def hexVal (c : Char) : Option Nat :=
  if '0' ≤ c ∧ c ≤ '9' then some (c.toNat - 48)
  else if 'a' ≤ c ∧ c ≤ 'f' then some (c.toNat - 87)
  else if 'A' ≤ c ∧ c ≤ 'F' then some (c.toNat - 55)
  else none

/-- Decimal digit test. -/
def isDigit (c : Char) : Bool := '0' ≤ c && c ≤ '9'

/-- Parse a JSON string body after the opening quote; returns the decoded
characters and the rest after the closing quote. -/
def parseStrBody : Str → Option (Str × Str)
  | [] => none
  | '"' :: r => some ([], r)
  | '\\' :: 'u' :: h1 :: h2 :: h3 :: h4 :: r =>
    match hexVal h1, hexVal h2, hexVal h3, hexVal h4 with
    | some a, some b, some c, some d =>
      (parseStrBody r).map
        (fun p => (Char.ofNat (((a * 16 + b) * 16 + c) * 16 + d) :: p.1, p.2))
    | _, _, _, _ => none
  | '\\' :: e :: r =>
    let esc : Option Char :=
      if e = '"' then some '"'
      else if e = '\\' then some '\\'
      else if e = '/' then some '/'
      else if e = 'b' then some '\x08'
      else if e = 'f' then some '\x0c'
      else if e = 'n' then some '\n'
      else if e = 'r' then some '\r'
      else if e = 't' then some '\t'
      else none
    match esc with
    | some c => (parseStrBody r).map (fun p => (c :: p.1, p.2))
    | none => none
  | c :: r =>
    if c.toNat < 32 then none
    else (parseStrBody r).map (fun p => (c :: p.1, p.2))

/-- Integer part of a JSON number (no leading zeros). -/
def parseIntPart : Str → Option (Str × Str)
  | [] => none
  | c :: r =>
    if c = '0' then some (['0'], r)
    else if '1' ≤ c ∧ c ≤ '9' then
      some (c :: r.takeWhile isDigit, r.dropWhile isDigit)
    else none

/-- Optional fraction part (a `'.'` must be followed by at least one
digit, otherwise the whole number token is invalid). -/
def parseFracPart : Str → Option (Str × Str)
  | '.' :: r =>
    match r.takeWhile isDigit with
    | [] => none
    | ds => some ('.' :: ds, r.dropWhile isDigit)
  | s => some ([], s)

/-- Optional exponent part. -/
def parseExpPart : Str → Option (Str × Str)
  | [] => some ([], [])
  | e :: r =>
    if e = 'e' ∨ e = 'E' then
      let sr : Str × Str :=
        match r with
        | '+' :: r2 => (['+'], r2)
        | '-' :: r2 => (['-'], r2)
        | _ => ([], r)
      match sr.2.takeWhile isDigit with
      | [] => none
      | ds => some (e :: (sr.1 ++ ds), sr.2.dropWhile isDigit)
    else some ([], e :: r)

/-- A JSON number token (returned raw). -/
def parseNumber (s : Str) : Option (Str × Str) :=
  let sr : Str × Str :=
    match s with
    | '-' :: r => (['-'], r)
    | _ => ([], s)
  match parseIntPart sr.2 with
  | none => none
  | some (i, s2) =>
    match parseFracPart s2 with
    | none => none
    | some (f, s3) =>
      match parseExpPart s3 with
      | none => none
      | some (x, s4) => some (sr.1 ++ i ++ f ++ x, s4)

/-- Array element list (after the `'['`, when the array is nonempty); the
`fuel` bounds the number of elements, the value parser is passed in. -/
def parseElemsWith (pv : Str → Option (Json × Str)) :
    Nat → Str → Option (List Json × Str)
  | 0, _ => none
  | fuel + 1, s =>
    match pv s with
    | none => none
    | some (v, r) =>
      match skipWs r with
      | ']' :: r2 => some ([v], r2)
      | ',' :: r2 =>
        match parseElemsWith pv fuel r2 with
        | some (vs, r3) => some (v :: vs, r3)
        | none => none
      | _ => none

/-- Object member list (after the `'{'`, when the object is nonempty). -/
def parseMembersWith (pv : Str → Option (Json × Str)) :
    Nat → Str → Option (List (Str × Json) × Str)
  | 0, _ => none
  | fuel + 1, s =>
    match skipWs s with
    | '"' :: r =>
      match parseStrBody r with
      | none => none
      | some (k, r2) =>
        match skipWs r2 with
        | ':' :: r3 =>
          match pv r3 with
          | none => none
          | some (v, r4) =>
            match skipWs r4 with
            | '}' :: r5 => some ([(k, v)], r5)
            | ',' :: r5 =>
              match parseMembersWith pv fuel r5 with
              | some (ms, r6) => some ((k, v) :: ms, r6)
              | none => none
            | _ => none
        | _ => none
    | _ => none

/-- Fueled JSON value parser: each recursive descent consumes at least one
character, so fuel `length + 1` (as supplied by `parseJson`) never runs
out. -/
def parseV : Nat → Str → Option (Json × Str)
  | 0, _ => none
  | fuel + 1, s =>
    match skipWs s with
    | [] => none
    | c :: r =>
      if c = '{' then
        match skipWs r with
        | '}' :: r2 => some (.obj [], r2)
        | _ =>
          match parseMembersWith (parseV fuel) fuel r with
          | some (ms, r2) => some (.obj ms, r2)
          | none => none
      else if c = '[' then
        match skipWs r with
        | ']' :: r2 => some (.arr [], r2)
        | _ =>
          match parseElemsWith (parseV fuel) fuel r with
          | some (vs, r2) => some (.arr vs, r2)
          | none => none
      else if c = '"' then
        match parseStrBody r with
        | some (sb, r2) => some (.str sb, r2)
        | none => none
      else if c = 't' then
        if (str "rue").isPrefixOf r then some (.bool true, r.drop 3) else none
      else if c = 'f' then
        if (str "alse").isPrefixOf r then some (.bool false, r.drop 4) else none
      else if c = 'n' then
        if (str "ull").isPrefixOf r then some (.null, r.drop 3) else none
      else
        match parseNumber (c :: r) with
        | some (raw, r2) => some (.num raw, r2)
        | none => none

/-- `JSON.parse`: one value, with only whitespace allowed after it. -/
def parseJson (s : Str) : Option Json :=
  match parseV (s.length + 1) s with
  | some (v, rest) => if skipWs rest = [] then some v else none
  | none => none

/-- A content block of the remote reply: `text`-typed or anything else. -/
inductive Blk where
  | text (s : Str) : Blk
  | other : Blk

/-- Errors that can escape the suggestion pipeline: a remote/transport
failure, the `TypeError` of reading `content[0].type` on an empty block
list, and a `JSON.parse` failure. -/
inductive JsErr where
  | network : JsErr
  | typeErr : JsErr
  | parse : JsErr
deriving DecidableEq

/-- `response.content[0].type === 'text' ? response.content[0].text : ''`
(given a nonempty block list). -/
def blkText : Blk → Str
  | .text s => s
  | .other => []

/-- `text.match(/\[.*\]/s)` (line 151): with the `s` flag, `.` matches
everything, so the greedy match runs from the first `'['` to the last
`']'` of the whole text; no match when no `']'` follows the first `'['`. -/
def extractArr (t : Str) : Option Str :=
  match splitFirst ['['] t with
  | none => none
  | some (_, after) =>
    match lastBrk after with
    | some (mid, _) => some ('[' :: (mid ++ [']']))
    | none => none

/-- The plugin settings (`AITaggerSettings`). -/
structure PSettings where
  apiKey : Str
  model : Str
  maxTags : Nat
  autoApply : Bool
  language : Str
deriving DecidableEq

/-- `DEFAULT_SETTINGS` from `main.ts`. -/
def DEFAULT_SETTINGS : PSettings :=
  { apiKey := []
    model := str "claude-haiku-4-5-20251001"
    maxTags := 5
    autoApply := false
    language := str "auto" }

/-- The language directive of the prompt (lines 129–133). -/
def langHint (s : PSettings) : Str :=
  if s.language = str "ko" then str "Respond with Korean tags."
  else if s.language = str "en" then str "Respond with English tags."
  else str "Detect the language of the content and use the same language for tags."

/-- Decimal rendering of a count (for the template literals). -/
def natToStr (n : Nat) : Str := (toString n).data

/-- The prompt built by `suggestTags` (lines 128–146), including the
3000-character truncation of the note text. -/
def mkPrompt (s : PSettings) (content : Str) : Str :=
  str "Analyze this note and suggest up to " ++ natToStr s.maxTags ++
  str " relevant tags.\n" ++ langHint s ++
  str "\nReturn ONLY a JSON array of tag strings, no # prefix, lowercase, use hyphens for spaces.\nExample: [\"project-management\", \"productivity\", \"goals\"]\n\nNote content:\n"
  ++ content.take 3000

/-- Observable effects of the plugin operations. -/
inductive Ev where
  | notice (msg : Str) : Ev
  | noticeErr (e : JsErr) : Ev
  | netCall (model : Str) (maxTokens : Nat) (prompt : Str) : Ev
  | write (path : Str) (content : Str) : Ev
  | logError (path : Str) : Ev
  | modalOpen (tags : List Json) (path : Str) : Ev

/-- Result extraction of `suggestTags` (lines 150–154) over the reply's
content blocks.  An empty block list makes `response.content[0].type`
throw.  The `.ok [v]` fallback arm is unreachable: the matched substring
starts with `'['`, so a successful parse is an array
(`parseJson_bracket_arr` below). -/
def extractTags (blocks : List Blk) : Except JsErr (List Json) :=
  match blocks with
  | [] => .error .typeErr
  | b :: _ =>
    match extractArr (blkText b) with
    | none => .ok []
    | some S =>
      match parseJson S with
      | some (.arr vs) => .ok vs
      | some v => .ok [v]
      | none => .error .parse

/-- `suggestTags` (lines 125–155): with no client it returns the empty list
without any network call; otherwise it issues the request (one `netCall`
event carrying the model, the 200-token budget and the prompt) and applies
the result extraction to the reply, propagating transport errors. -/
def suggestTagsEv (client : Option Str) (s : PSettings) (content : Str)
    (netResult : Except JsErr (List Blk)) :
    List Ev × Except JsErr (List Json) :=
  match client with
  | none => ([], .ok [])
  | some _ =>
    ([.netCall s.model 200 (mkPrompt s content)],
     match netResult with
     | .error e => .error e
     | .ok blocks => extractTags blocks)

/-! ## Claims C6, C7, C10 on the Tag Suggestion Client -/

/-- A value parsed from a string that starts with the bracket character is
an array (given nonzero fuel). -/
theorem parseV_bracket_arr (fuel : Nat) (t : Str) (v : Json) (r : Str)
    (h : parseV (fuel + 1) ('[' :: t) = some (v, r)) :
    ∃ vs, v = Json.arr vs := by
  unfold parseV at h
  rw [show skipWs ('[' :: t) = '[' :: t from rfl] at h
  simp only [] at h
  rw [if_neg (by decide : ¬('[' : Char) = '{')] at h
  simp only [if_true] at h
  split at h
  · exact ⟨[], by injection h with h1; injection h1 with h2 _; exact h2.symm⟩
  · split at h
    · rename_i vs r2 _
      exact ⟨vs, by injection h with h1; injection h1 with h2 _; exact h2.symm⟩
    · exact absurd h (by simp)

/-- A successful `JSON.parse` of a string that starts with the bracket
character yields an array: the non-array fallback arm of the result
extraction is dead code. -/
theorem parseJson_bracket_arr (t : Str) (v : Json)
    (h : parseJson ('[' :: t) = some v) : ∃ vs, v = Json.arr vs := by
  unfold parseJson at h
  split at h
  · rename_i v' rest heq
    rw [List.length_cons] at heq
    obtain ⟨vs, hvs⟩ := parseV_bracket_arr (t.length + 1) t v' rest heq
    split at h
    · exact ⟨vs, by injection h with h1; rw [← h1]; exact hvs⟩
    · exact absurd h (by simp)
  · exact absurd h (by simp)

/-- C6: result extraction of suggestTags over a reply whose first content
block is text-typed: no bracketed substring (first opening to last closing
bracket) means the empty suggestion list and no error; a bracketed
substring that is valid JSON is returned as the parsed (necessarily array)
value list; a bracketed substring that is invalid JSON propagates a parse
error to the caller.  In each case the single network call is made. -/
theorem c6_extraction (key : Str) (s : PSettings) (content : Str)
    (t : Str) (rest : List Blk) :
    (extractArr t = none →
      suggestTagsEv (some key) s content (Except.ok (Blk.text t :: rest)) =
        ([Ev.netCall s.model 200 (mkPrompt s content)], Except.ok [])) ∧
    (∀ S v, extractArr t = some S → parseJson S = some v →
      ∃ vs, v = Json.arr vs ∧
        suggestTagsEv (some key) s content (Except.ok (Blk.text t :: rest)) =
          ([Ev.netCall s.model 200 (mkPrompt s content)], Except.ok vs)) ∧
    (∀ S, extractArr t = some S → parseJson S = none →
      suggestTagsEv (some key) s content (Except.ok (Blk.text t :: rest)) =
        ([Ev.netCall s.model 200 (mkPrompt s content)], Except.error JsErr.parse)) := by
  refine ⟨?_, ?_, ?_⟩
  · intro h
    simp only [suggestTagsEv, extractTags, blkText, h]
  · intro S v hS hp
    obtain ⟨mid, hmid⟩ : ∃ mid, S = '[' :: mid := by
      unfold extractArr at hS
      split at hS
      · exact absurd hS (by simp)
      · split at hS
        · rename_i m k _
          exact ⟨m ++ [']'], by injection hS with h1; exact h1.symm⟩
        · exact absurd hS (by simp)
    subst hmid
    obtain ⟨vs, hvs⟩ := parseJson_bracket_arr mid v hp
    subst hvs
    refine ⟨vs, rfl, ?_⟩
    simp only [suggestTagsEv, extractTags, blkText, hS, hp]
  · intro S hS hp
    simp only [suggestTagsEv, extractTags, blkText, hS, hp]

/-- Witness for C6: a chatty reply around the array `["alpha", "beta"]`
yields exactly those two suggestions. -/
theorem c6_extraction_witness :
    suggestTagsEv (some (str "k")) DEFAULT_SETTINGS (str "note")
      (Except.ok [Blk.text (str "Sure! tags: [\"alpha\", \"beta\"] hope it helps")]) =
      ([Ev.netCall DEFAULT_SETTINGS.model 200 (mkPrompt DEFAULT_SETTINGS (str "note"))],
        Except.ok [Json.str (str "alpha"), Json.str (str "beta")]) := by
  obtain ⟨vs, hvs, hout⟩ :=
    (c6_extraction (str "k") DEFAULT_SETTINGS (str "note")
        (str "Sure! tags: [\"alpha\", \"beta\"] hope it helps") []).2.1
      (str "[\"alpha\", \"beta\"]")
      (Json.arr [Json.str (str "alpha"), Json.str (str "beta")]) rfl rfl
  injection hvs with h1
  rw [← h1] at hout
  exact hout

/-- C7 counterexample: with the default maximum of five tags, a reply
carrying a six-element array yields six suggestions — the configured
maximum never clamps the result. -/
theorem c7_max_tags_cex :
    ∃ l, (suggestTagsEv (some (str "k")) DEFAULT_SETTINGS (str "note")
        (Except.ok [Blk.text (str "[\"a\",\"b\",\"c\",\"d\",\"e\",\"f\"]")])).2 =
        Except.ok l ∧ DEFAULT_SETTINGS.maxTags < l.length :=
  ⟨[Json.str (str "a"), Json.str (str "b"), Json.str (str "c"),
    Json.str (str "d"), Json.str (str "e"), Json.str (str "f")],
    rfl, by decide⟩

/-- C7 (amended): the configured maximum is used only inside the prompt
text; the returned tag sequence is whatever array the reply parses to, so
the suggestion result is entirely independent of the settings, `maxTags`
included. -/
theorem c7_max_tags (client : Option Str) (s s' : PSettings)
    (content content' : Str) (net : Except JsErr (List Blk)) :
    (suggestTagsEv client s content net).2 =
      (suggestTagsEv client s' content' net).2 := by
  cases client with
  | none => rfl
  | some k => cases net <;> rfl

/-- C10: with a null client, suggestTags returns the empty suggestion list
with no error and no network call, whatever the content and the remote
behaviour. -/
theorem c10_null_client (s : PSettings) (content : Str)
    (netResult : Except JsErr (List Blk)) :
    suggestTagsEv none s content netResult = ([], Except.ok []) := rfl

/-! ## The Batch Driver and plugin state (tagAllNotes, tagCurrentNote,
initClient, loadSettings, the settings tab) -/

mutual
/-- JavaScript ToString of a parsed JSON value, as the template literal of
line 172 applies it to each merged tag.  Arrays stringify through
Array.prototype.toString (elements joined with commas); objects print the
standard tag; a number prints its token (the model keeps number tokens
raw, so canonical float re-rendering is out of scope). -/
def jsToString : Json → Str
  | Json.null => str "null"
  | Json.bool true => str "true"
  | Json.bool false => str "false"
  | Json.num raw => raw
  | Json.str s => s
  | Json.arr l => jsToStringList l
  | Json.obj _ => str "[object Object]"
/-- Comma join of Array.prototype.toString. -/
def jsToStringList : List Json → Str
  | [] => []
  | [x] => jsToString x
  | x :: y :: xs => jsToString x ++ ',' :: jsToStringList (y :: xs)
end

mutual
/-- Equality of parsed JSON values, as the Set of line 169 compares its
elements (structural here: exact for the primitive values the reply format
documents; JavaScript compares parsed objects by reference, out of
scope). -/
def jeq : Json → Json → Bool
  | Json.null, Json.null => true
  | Json.bool a, Json.bool b => a == b
  | Json.num a, Json.num b => a == b
  | Json.str a, Json.str b => a == b
  | Json.arr a, Json.arr b => jeqList a b
  | Json.obj a, Json.obj b => jeqMembers a b
  | _, _ => false
/-- Element-wise equality of arrays. -/
def jeqList : List Json → List Json → Bool
  | [], [] => true
  | a :: as, b :: bs => jeq a b && jeqList as bs
  | _, _ => false
/-- Member-wise equality of objects. -/
def jeqMembers : List (Str × Json) → List (Str × Json) → Bool
  | [], [] => true
  | (k, v) :: as, (k2, v2) :: bs => k == k2 && jeq v v2 && jeqMembers as bs
  | _, _ => false
end

/-- JS Set membership over parsed JSON values. -/
def jmem (x : Json) : List Json → Bool
  | [] => false
  | y :: ys => jeq x y || jmem x ys

/-- The Set de-duplication of line 169 over parsed JSON tag values. -/
def setDedupJAux (seen : List Json) : List Json → List Json
  | [] => []
  | x :: xs =>
    if jmem x seen then setDedupJAux seen xs
    else x :: setDedupJAux (x :: seen) xs

/-- The quote-and-join of lines 172/176/181 over parsed JSON values: each
element is stringified by the template literal. -/
def serializeTagsJ : List Json → Str
  | [] => []
  | [t] => '"' :: (jsToString t ++ ['"'])
  | t :: rest => '"' :: (jsToString t ++ ['"']) ++ str ", " ++ serializeTagsJ rest

/-- `applyTags` exactly as in lines 157–184, but at the type the batch
pipeline actually feeds it: the raw `JSON.parse` result (`suggestTags`
declares `string[]` and never checks), with the existing tags entering the
merge as JavaScript strings. -/
def applyTagsJ (content : Str) (tags : List Json) : Str :=
  match fmMatch content with
  | some (body, _) =>
    let match0 := str "---\n" ++ body ++ str "\n---"
    match tagsSearch body with
    | some (pre, ws, inner, post) =>
      let current := (parseTags inner).map Json.str
      let merged := setDedupJAux [] (current ++ tags)
      let newField := str "tags: [" ++ serializeTagsJ merged ++ str "]"
      let matched := str "tags:" ++ ws ++ str "[" ++ inner ++ str "]"
      let newFrontmatter :=
        pre ++ getSubstitution pre matched post none newField ++ post
      replaceFirstStr content match0
        (str "---\n" ++ newFrontmatter ++ str "\n---")
    | none =>
      let newFrontmatter :=
        body ++ str "\ntags: [" ++ serializeTagsJ tags ++ str "]"
      replaceFirstStr content match0
        (str "---\n" ++ newFrontmatter ++ str "\n---")
  | none =>
    str "---\ntags: [" ++ serializeTagsJ tags ++ str "]\n---\n\n" ++ content

/-- The vault, for the batch command: the markdown files as path–content
pairs. -/
abbrev Vault := List (Str × Str)

/-- `vault.read`. -/
def vaultRead (v : Vault) (path : Str) : Str :=
  match v.find? (fun e => decide (e.1 = path)) with
  | some e => e.2
  | none => []

/-- `vault.modify`. -/
def vaultWrite (v : Vault) (path content : Str) : Vault :=
  v.map (fun e => if e.1 = path then (e.1, content) else e)

/-- The missing-key warning text of lines 63 and 95. -/
def warnNoKey : Str := str "⚠️ Please set your Claude API key in settings"

/-- The plugin's mutable state: the settings and the client handle,
modeled by the API key the client was constructed with (`none` = null). -/
structure PState where
  settings : PSettings
  client : Option Str
deriving DecidableEq

/-- `initClient` (lines 55–59): constructs a client only when the key is
non-empty (truthy); there is no else branch, so an existing client is
never cleared. -/
def initClient (st : PState) : PState :=
  if st.settings.apiKey = [] then st
  else { st with client := some st.settings.apiKey }

/-- Does an event issue a network request? -/
def isNet : Ev → Bool
  | Ev.netCall _ _ _ => true
  | _ => false

/-- Does an event write a note? -/
def isWrite : Ev → Bool
  | Ev.write _ _ => true
  | _ => false

/-- One iteration of the tagAllNotes loop (lines 103–120) on one file: the
note is read; a note whose trimmed content is shorter than 50 characters
is skipped with no effect; otherwise suggestTags runs (the client stays
non-null through the loop), a thrown error is caught and logged with the
count and vault untouched, and on success the tags are applied when the
list is non-empty and autoApply is on, the count is incremented, and every
tenth processed note emits a progress notice. -/
def noteStep (set : PSettings) (key : Str) (net : Str → Except JsErr (List Blk))
    (total : Nat) (v : Vault) (processed : Nat) (path : Str) :
    List Ev × Nat × Vault :=
  if (jsTrim (vaultRead v path)).length < 50 then ([], processed, v)
  else
    match suggestTagsEv (some key) set (vaultRead v path) (net path) with
    | (evs, Except.error _) => (evs ++ [Ev.logError path], processed, v)
    | (evs, Except.ok tags) =>
      (evs ++
        (if 0 < tags.length ∧ set.autoApply = true
          then [Ev.write path (applyTagsJ (vaultRead v path) tags)] else []) ++
        (if (processed + 1) % 10 = 0
          then [Ev.notice (str "Progress: " ++ natToStr (processed + 1) ++
            '/' :: natToStr total)] else []),
        processed + 1,
        if 0 < tags.length ∧ set.autoApply = true
          then vaultWrite v path (applyTagsJ (vaultRead v path) tags) else v)

/-- The for-loop of tagAllNotes over the file list, threading the
processed count and the vault. -/
def tagAllLoop (set : PSettings) (key : Str)
    (net : Str → Except JsErr (List Blk)) (total : Nat) :
    List Str → Nat → Vault → List Ev × Nat × Vault
  | [], processed, v => ([], processed, v)
  | path :: files, processed, v =>
    let r1 := noteStep set key net total v processed path
    let r2 := tagAllLoop set key net total files r1.2.1 r1.2.2
    (r1.1 ++ r2.1, r2.2.1, r2.2.2)

/-- tagAllNotes (lines 93–123): with a null client only the warning notice
and no effect; otherwise the tagging banner, the loop over every markdown
file, and the final done notice carrying the processed count. -/
def tagAllNotesEv (st : PState) (v : Vault)
    (net : Str → Except JsErr (List Blk)) : List Ev × Vault :=
  match st.client with
  | none => ([Ev.notice warnNoKey], v)
  | some key =>
    let r := tagAllLoop st.settings key net v.length (v.map (fun e => e.1)) 0 v
    (Ev.notice (str "🤖 Tagging " ++ natToStr v.length ++ str " notes...") ::
      r.1 ++ [Ev.notice (str "✅ Done! Tagged " ++ natToStr r.2.1 ++ str " notes")],
      r.2.2)

/-- tagCurrentNote (lines 61–91).  The view argument models the active
markdown view: `none` = no view, `some none` = a view with no file,
`some (some (path, content))` = a view on a note. -/
def tagCurrentNoteEv (st : PState) (view : Option (Option (Str × Str)))
    (net : Except JsErr (List Blk)) : List Ev :=
  match st.client with
  | none => [Ev.notice warnNoKey]
  | some key =>
    match view with
    | none => [Ev.notice (str "No active note")]
    | some none => []
    | some (some (path, content)) =>
      let r := suggestTagsEv (some key) st.settings content net
      Ev.notice (str "🤖 Analyzing note...") :: r.1 ++
        (match r.2 with
         | Except.error e => [Ev.noticeErr e]
         | Except.ok [] => [Ev.notice (str "No tags suggested")]
         | Except.ok tags => [Ev.modalOpen tags path])

/-- Saved plugin data as `loadData` returns it: `none` when nothing was
saved; a saved object may carry any subset of the fields
(`Object.assign` overrides only the fields present). -/
structure PartialSettings where
  apiKey : Option Str := none
  model : Option Str := none
  maxTags : Option Nat := none
  autoApply : Option Bool := none
  language : Option Str := none
deriving DecidableEq

/-- `loadSettings` (lines 186–188): `Object.assign` of the defaults and
the saved data. -/
def loadSettings (data : Option PartialSettings) : PSettings :=
  let d := data.getD {}
  { apiKey := d.apiKey.getD DEFAULT_SETTINGS.apiKey
    model := d.model.getD DEFAULT_SETTINGS.model
    maxTags := d.maxTags.getD DEFAULT_SETTINGS.maxTags
    autoApply := d.autoApply.getD DEFAULT_SETTINGS.autoApply
    language := d.language.getD DEFAULT_SETTINGS.language }

/-- `onload` (lines 24–26): load the settings, then initClient, starting
from a null client. -/
def onload (data : Option PartialSettings) : PState :=
  initClient { settings := loadSettings data, client := none }

/-- A settings-tab change (lines 263–319): each onChange writes one
settings field and calls saveSettings. -/
inductive Act where
  | setApiKey (v : Str) : Act
  | setModel (v : Str) : Act
  | setMaxTags (n : Nat) : Act
  | setLanguage (v : Str) : Act
  | setAutoApply (b : Bool) : Act
deriving DecidableEq

/-- Apply one settings change: mutate the field, then saveSettings, which
re-runs initClient (lines 190–193). -/
def applyAct (st : PState) : Act → PState
  | Act.setApiKey v =>
    initClient { st with settings := { st.settings with apiKey := v } }
  | Act.setModel v =>
    initClient { st with settings := { st.settings with model := v } }
  | Act.setMaxTags n =>
    initClient { st with settings := { st.settings with maxTags := n } }
  | Act.setLanguage v =>
    initClient { st with settings := { st.settings with language := v } }
  | Act.setAutoApply b =>
    initClient { st with settings := { st.settings with autoApply := b } }

/-- The reachable plugin states: onload on some saved data, followed by
any sequence of settings-tab changes. -/
def runActs (data : Option PartialSettings) (acts : List Act) : PState :=
  acts.foldl applyAct (onload data)

/-- A long enough note for the batch driver not to skip it. -/
def longNote : Str :=
  str "This note is long enough for the bulk tagger to process it, over fifty characters."

/-- noteStep on a non-short note whose suggestion throws: the failure is
logged and the processed count and the vault are untouched. -/
theorem noteStep_error (set : PSettings) (key : Str)
    (net : Str → Except JsErr (List Blk)) (total : Nat) (v : Vault)
    (p : Nat) (path : Str) (e : JsErr)
    (hlong : ¬ (jsTrim (vaultRead v path)).length < 50)
    (herr : (suggestTagsEv (some key) set (vaultRead v path) (net path)).2 =
      Except.error e) :
    noteStep set key net total v p path =
      ((suggestTagsEv (some key) set (vaultRead v path) (net path)).1 ++
        [Ev.logError path], p, v) := by
  have hx : suggestTagsEv (some key) set (vaultRead v path) (net path) =
      ((suggestTagsEv (some key) set (vaultRead v path) (net path)).1,
        Except.error e) := by
    rw [← herr]
  unfold noteStep
  rw [if_neg hlong, hx]

/-- noteStep's count is incremented exactly when the note is long enough
and the suggestion pipeline completes without an error. -/
theorem noteStep_count (set : PSettings) (key : Str)
    (net : Str → Except JsErr (List Blk)) (total : Nat) (v : Vault)
    (p : Nat) (path : Str) :
    (noteStep set key net total v p path).2.1 = p + 1 ↔
      ¬ (jsTrim (vaultRead v path)).length < 50 ∧
        ∃ tags,
          (suggestTagsEv (some key) set (vaultRead v path) (net path)).2 =
            Except.ok tags := by
  unfold noteStep
  by_cases hshort : (jsTrim (vaultRead v path)).length < 50
  · rw [if_pos hshort]
    simp only []
    constructor
    · intro h; omega
    · rintro ⟨hl, _⟩; exact absurd hshort hl
  · rw [if_neg hshort]
    rcases hs : suggestTagsEv (some key) set (vaultRead v path) (net path)
      with ⟨evs, res⟩
    cases res with
    | error e =>
      simp only []
      constructor
      · intro h; omega
      · rintro ⟨_, tags, htags⟩
        exact Except.noConfusion htags
    | ok tags =>
      simp only []
      exact ⟨fun _ => ⟨hshort, tags, by trivial⟩, fun _ => by trivial⟩

/-- noteStep on a non-short note with an empty suggestion list: the count
is incremented, nothing is written, the vault is unchanged. -/
theorem noteStep_ok_empty (set : PSettings) (key : Str)
    (net : Str → Except JsErr (List Blk)) (total : Nat) (v : Vault)
    (p : Nat) (path : Str)
    (hlong : ¬ (jsTrim (vaultRead v path)).length < 50)
    (hok : (suggestTagsEv (some key) set (vaultRead v path) (net path)).2 =
      Except.ok []) :
    noteStep set key net total v p path =
      ((suggestTagsEv (some key) set (vaultRead v path) (net path)).1 ++
        (if (p + 1) % 10 = 0 then
          [Ev.notice (str "Progress: " ++ natToStr (p + 1) ++
            '/' :: natToStr total)] else []),
        p + 1, v) := by
  have hx : suggestTagsEv (some key) set (vaultRead v path) (net path) =
      ((suggestTagsEv (some key) set (vaultRead v path) (net path)).1,
        Except.ok []) := by
    rw [← hok]
  unfold noteStep
  rw [if_neg hlong, hx]
  simp only []
  rw [if_neg (by simp : ¬(0 < List.length ([] : List Json) ∧
    set.autoApply = true))]
  rw [if_neg (by simp : ¬(0 < List.length ([] : List Json) ∧
    set.autoApply = true))]
  simp

/-- C8: in tagAllNotes, a per-note suggestion failure on a non-short note
is caught and logged, and the loop continues over the remaining files with
the processed count and the vault unchanged; the count is incremented
exactly on successful completion of a note's pipeline; and an empty
suggestion list still increments the count while writing nothing (no write
event, vault unchanged). -/
theorem c8_batch_isolation (set : PSettings) (key : Str)
    (net : Str → Except JsErr (List Blk)) (total : Nat) (v : Vault)
    (p : Nat) (path : Str) (files : List Str) :
    (¬ (jsTrim (vaultRead v path)).length < 50 →
      ∀ e, (suggestTagsEv (some key) set (vaultRead v path) (net path)).2 =
          Except.error e →
        tagAllLoop set key net total (path :: files) p v =
          ((suggestTagsEv (some key) set (vaultRead v path) (net path)).1 ++
              Ev.logError path :: (tagAllLoop set key net total files p v).1,
            (tagAllLoop set key net total files p v).2)) ∧
    ((noteStep set key net total v p path).2.1 = p + 1 ↔
      ¬ (jsTrim (vaultRead v path)).length < 50 ∧
        ∃ tags,
          (suggestTagsEv (some key) set (vaultRead v path) (net path)).2 =
            Except.ok tags) ∧
    (¬ (jsTrim (vaultRead v path)).length < 50 →
      (suggestTagsEv (some key) set (vaultRead v path) (net path)).2 =
          Except.ok [] →
      noteStep set key net total v p path =
        ((suggestTagsEv (some key) set (vaultRead v path) (net path)).1 ++
          (if (p + 1) % 10 = 0 then
            [Ev.notice (str "Progress: " ++ natToStr (p + 1) ++
              '/' :: natToStr total)] else []),
          p + 1, v) ∧
      ((noteStep set key net total v p path).1.all fun e => !isWrite e) = true) := by
  refine ⟨?_, noteStep_count set key net total v p path, ?_⟩
  · intro hlong e herr
    have h1 := noteStep_error set key net total v p path e hlong herr
    simp only [tagAllLoop]
    rw [h1]
    simp
  · intro hlong hok
    have h2 := noteStep_ok_empty set key net total v p path hlong hok
    refine ⟨h2, ?_⟩
    rw [h2]
    have h1 : (suggestTagsEv (some key) set (vaultRead v path) (net path)).1 =
        [Ev.netCall set.model 200 (mkPrompt set (vaultRead v path))] := rfl
    rw [h1]
    by_cases hp : (p + 1) % 10 = 0
    · rw [if_pos hp]; rfl
    · rw [if_neg hp]; rfl

/-- Witness for C8 at concrete inputs: one long note; a network failure is
logged with count and vault unchanged, and a reply with no bracketed array
(empty suggestion) increments the count and writes nothing. -/
theorem c8_batch_isolation_witness :
    (tagAllLoop DEFAULT_SETTINGS (str "k")
        (fun _ => Except.error JsErr.network) 1
        (str "a.md" :: []) 0 [(str "a.md", longNote)] =
      ((suggestTagsEv (some (str "k")) DEFAULT_SETTINGS
          (vaultRead [(str "a.md", longNote)] (str "a.md"))
          (Except.error JsErr.network)).1 ++
        Ev.logError (str "a.md") ::
          (tagAllLoop DEFAULT_SETTINGS (str "k")
            (fun _ => Except.error JsErr.network) 1
            [] 0 [(str "a.md", longNote)]).1,
        (tagAllLoop DEFAULT_SETTINGS (str "k")
          (fun _ => Except.error JsErr.network) 1
          [] 0 [(str "a.md", longNote)]).2)) ∧
    ((noteStep DEFAULT_SETTINGS (str "k")
        (fun _ => Except.ok [Blk.text (str "no brackets here")]) 1
        [(str "a.md", longNote)] 0 (str "a.md")).2.1 = 0 + 1) ∧
    (noteStep DEFAULT_SETTINGS (str "k")
        (fun _ => Except.ok [Blk.text (str "no brackets here")]) 1
        [(str "a.md", longNote)] 0 (str "a.md") =
      ((suggestTagsEv (some (str "k")) DEFAULT_SETTINGS
          (vaultRead [(str "a.md", longNote)] (str "a.md"))
          (Except.ok [Blk.text (str "no brackets here")])).1 ++
        (if (0 + 1) % 10 = 0 then
          [Ev.notice (str "Progress: " ++ natToStr (0 + 1) ++
            '/' :: natToStr 1)] else []),
        0 + 1, [(str "a.md", longNote)])) ∧
    ((noteStep DEFAULT_SETTINGS (str "k")
        (fun _ => Except.ok [Blk.text (str "no brackets here")]) 1
        [(str "a.md", longNote)] 0 (str "a.md")).1.all
      fun e => !isWrite e) = true :=
  ⟨(c8_batch_isolation DEFAULT_SETTINGS (str "k")
      (fun _ => Except.error JsErr.network) 1
      [(str "a.md", longNote)] 0 (str "a.md") []).1 (by decide)
      JsErr.network rfl,
   (c8_batch_isolation DEFAULT_SETTINGS (str "k")
      (fun _ => Except.ok [Blk.text (str "no brackets here")]) 1
      [(str "a.md", longNote)] 0 (str "a.md") []).2.1.mpr
      ⟨by decide, [], rfl⟩,
   ((c8_batch_isolation DEFAULT_SETTINGS (str "k")
      (fun _ => Except.ok [Blk.text (str "no brackets here")]) 1
      [(str "a.md", longNote)] 0 (str "a.md") []).2.2 (by decide) rfl).1,
   ((c8_batch_isolation DEFAULT_SETTINGS (str "k")
      (fun _ => Except.ok [Blk.text (str "no brackets here")]) 1
      [(str "a.md", longNote)] 0 (str "a.md") []).2.2 (by decide) rfl).2⟩

/-- Settings changes that never supply a non-empty key keep the client
null and the key empty. -/
theorem foldl_client_none (acts : List Act) :
    ∀ st : PState, st.client = none → st.settings.apiKey = [] →
      (∀ v, Act.setApiKey v ∈ acts → v = []) →
      (acts.foldl applyAct st).client = none ∧
      (acts.foldl applyAct st).settings.apiKey = [] := by
  induction acts with
  | nil => exact fun st h0 hk _ => ⟨h0, hk⟩
  | cons a rest ih =>
    intro st h0 hk h1
    rw [List.foldl_cons]
    refine ih (applyAct st a) ?_ ?_ (fun v hv => h1 v (List.mem_cons_of_mem a hv))
    all_goals
      cases a with
      | setApiKey v =>
        have hv : v = [] := h1 v (List.mem_cons_self _ _)
        subst hv
        simp [applyAct, initClient, h0, hk]
      | setModel v => simp [applyAct, initClient, h0, hk]
      | setMaxTags n => simp [applyAct, initClient, h0, hk]
      | setLanguage v => simp [applyAct, initClient, h0, hk]
      | setAutoApply b => simp [applyAct, initClient, h0, hk]

/-- C9 counterexample: loading a saved key and then clearing it in the
settings tab reaches a state with an empty API key but a stale client
(initClient has no else branch); tagAllNotes in that state issues a
network call instead of warning and aborting. -/
theorem c9_missing_key_cex :
    (runActs (some ⟨some (str "k"), none, none, none, none⟩)
        [Act.setApiKey []]).settings.apiKey = [] ∧
    (runActs (some ⟨some (str "k"), none, none, none, none⟩)
        [Act.setApiKey []]).client = some (str "k") ∧
    ((tagAllNotesEv
        (runActs (some ⟨some (str "k"), none, none, none, none⟩)
          [Act.setApiKey []])
        [(str "a.md", longNote)]
        (fun _ => Except.error JsErr.network)).1.any isNet) = true :=
  ⟨rfl, rfl, rfl⟩

/-- C9 (amended): a state reached without ever supplying a non-empty API
key (none saved, none entered) has a null client, and in every such state
both commands detect the missing key, surface the warning notice as their
only effect, and abort: no network call, no write, no vault change.  (When
a non-empty key was supplied earlier, clearing it leaves a stale client
and the guard does not fire, as the counterexample shows.) -/
theorem c9_missing_key (data : Option PartialSettings) (acts : List Act)
    (h0 : (loadSettings data).apiKey = [])
    (h1 : ∀ v, Act.setApiKey v ∈ acts → v = []) :
    (runActs data acts).client = none ∧
    (∀ v net, tagAllNotesEv (runActs data acts) v net =
      ([Ev.notice warnNoKey], v)) ∧
    (∀ view net, tagCurrentNoteEv (runActs data acts) view net =
      [Ev.notice warnNoKey]) := by
  have hstart : (onload data).client = none ∧
      (onload data).settings.apiKey = [] := by
    unfold onload initClient
    rw [if_pos h0]
    exact ⟨rfl, h0⟩
  have hc := foldl_client_none acts (onload data) hstart.1 hstart.2 h1
  have hr : (runActs data acts).client = none := hc.1
  refine ⟨hr, ?_, ?_⟩
  · intro v net
    unfold tagAllNotesEv
    rw [hr]
  · intro view net
    unfold tagCurrentNoteEv
    rw [hr]

/-- Witness for C9: a fresh install (nothing saved) where the user only
changes the model: both commands abort with the warning. -/
theorem c9_missing_key_witness :
    (runActs none [Act.setModel (str "claude-sonnet-4-6")]).client = none ∧
    tagAllNotesEv (runActs none [Act.setModel (str "claude-sonnet-4-6")])
        [(str "a.md", longNote)] (fun _ => Except.error JsErr.network) =
      ([Ev.notice warnNoKey], [(str "a.md", longNote)]) ∧
    tagCurrentNoteEv (runActs none [Act.setModel (str "claude-sonnet-4-6")])
        (some (some (str "a.md", longNote))) (Except.error JsErr.network) =
      [Ev.notice warnNoKey] := by
  obtain ⟨h1, h2, h3⟩ :=
    c9_missing_key none [Act.setModel (str "claude-sonnet-4-6")] rfl
      (by intro v hv; simp only [List.mem_singleton] at hv; cases hv)
  exact ⟨h1, h2 [(str "a.md", longNote)] (fun _ => Except.error JsErr.network),
    h3 (some (some (str "a.md", longNote))) (Except.error JsErr.network)⟩
